import Mathlib

/-!
Verification development for the ox compiler-construction toolkit.

Shallow embedding of the parts of the code base the claims are about:

* `src/ox/target/python/operators.py` — the binary/unary operator enums with
  precedence and associativity data;
* `src/ox/target/python/expr_ast.py` — the Python-target expression node
  hierarchy (`Atom`, `Name`, `BinOp`, `UnaryOp`, `And`, `Or`), its
  precedence-aware printer (`tokens` / `wrap_child_tokens` / `source`);
* `src/ox/algorithms.py` — `reduce_op_chain` and `max_item`;
* `src/ox/ast/meta_attr.py` — `Meta.children_fields` / `Meta.children`;
* `src/ox/ast/children.py` — the fixed-arity children sequence;
* `src/ox/ast/ast_meta.py` — the generated node constructor (ownership check);
* `src/ox/ast/ast_base.py` — `copy`, `simplify`, `static_value`;
* `src/ox/ast/ast_core.py` and `src/ox/ast/ast_mixins.py` — `free_vars`.

Machine integers do not occur (Python integers are unbounded); numbers are
embedded as `Int`/`Nat`.  Fallible code returns `Except String` or `Option`.
-/

namespace Ox

/-- Binary operator enum from `src/ox/target/python/operators.py` (`BinaryOp`).
Members listed in the order of the source file. -/
inductive BinaryOp where
  | OR_ | AND_
  | OR | XOR | AND | RSHIFT | LSHIFT
  | ADD | SUB | MUL | TRUEDIV | MATMUL | MOD | FLOORDIV
  | POW
deriving DecidableEq, Repr

/-- The display string of each operator (the enum member value in the source). -/
def BinaryOp.value : BinaryOp → String
  | .OR_ => "or"
  | .AND_ => "and"
  | .OR => "|"
  | .XOR => "^"
  | .AND => "&"
  | .RSHIFT => ">>"
  | .LSHIFT => "<<"
  | .ADD => "+"
  | .SUB => "-"
  | .MUL => "*"
  | .TRUEDIV => "/"
  | .MATMUL => "@"
  | .MOD => "%"
  | .FLOORDIV => "//"
  | .POW => "**"

/-- Precedence levels from `BinaryOp.precedence_mapping` in
`src/ox/target/python/operators.py` (higher binds tighter). -/
def BinaryOp.precedence_level : BinaryOp → Nat
  | .OR_ => 1
  | .AND_ => 2
  | .OR => 4
  | .XOR => 5
  | .AND => 6
  | .RSHIFT => 7
  | .LSHIFT => 7
  | .ADD => 8
  | .SUB => 8
  | .MUL => 9
  | .TRUEDIV => 9
  | .MATMUL => 9
  | .MOD => 9
  | .FLOORDIV => 9
  | .POW => 10

/-- Membership in `BinaryOp.right_associative_set()` (`{POW, OR_, AND_}`). -/
def BinaryOp.right_associative : BinaryOp → Bool
  | .POW => true
  | .OR_ => true
  | .AND_ => true
  | _ => false

/-- Unary operator enum from `src/ox/target/python/operators.py` (`UnaryOp`). -/
inductive UnaryOpKind where
  | NOT_ | POS | NEG | NOT
deriving DecidableEq, Repr

/-- Display string of each unary operator. -/
def UnaryOpKind.value : UnaryOpKind → String
  | .NOT_ => "not"
  | .POS => "+"
  | .NEG => "-"
  | .NOT => "~"

/-- The Python-target expression fragment from
`src/ox/target/python/expr_ast.py` used throughout: `Atom` (restricted to
integer values), `Name`, `BinOp`, `UnaryOp`, `And`, `Or`. -/
inductive Expr where
  | atom (v : Int)
  | name (s : String)
  | binop (op : BinaryOp) (lhs rhs : Expr)
  | unary_op (op : UnaryOpKind) (e : Expr)
  | and_ (lhs rhs : Expr)
  | or_ (lhs rhs : Expr)
deriving DecidableEq, Repr

/-- The `precedence_level` attribute of an expression node: `BinaryOpMixin`
defines it as the operator's precedence; every other node keeps the `AST`
class default `0` (`src/ox/ast/ast_base.py`, line 36). -/
def Expr.precedence_level : Expr → Nat
  | .binop op _ _ => op.precedence_level
  | _ => 0

/-- The wrap decision of `BinOp.wrap_child_tokens`
(`src/ox/target/python/expr_ast.py`, lines 234-239): a `BinOp` child is
wrapped when the parent's precedence is strictly higher; `UnaryOp`, `And`
and `Or` children are always wrapped; everything else is not.  The `role`
argument is ignored by the source implementation as well. -/
def wrap_child_tokens (parent : BinaryOp) (child : Expr) (_role : String) : Bool :=
  match child with
  | .binop op _ _ => decide (op.precedence_level < parent.precedence_level)
  | .unary_op _ _ => true
  | .and_ _ _ => true
  | .or_ _ _ => true
  | _ => false

/-- The effect of `wrap_tokens` from `src/ox/ast/utils.py` on the joined
source string: surround with parentheses when `wrap` is true. -/
def wrapSource (wrap : Bool) (s : String) : String :=
  if wrap then "(" ++ s ++ ")" else s

/-- The joined token stream (`AST.source`, `src/ox/ast/ast_base.py` lines
70-76): concatenation of each node's `tokens`.  `Atom.tokens` yields
`repr(value)` (decimal for integers); `Name.tokens` yields the name;
`BinOp.tokens` yields the `child_tokens` of `lhs`, the space-padded operator
and the `child_tokens` of `rhs`; `UnaryOp.tokens` yields the operator string
followed directly by the unwrapped child tokens; `And`/`Or` render their
command template with unwrapped children. -/
def Expr.source : Expr → String
  | .atom v => toString v
  | .name s => s
  | .binop op l r =>
      wrapSource (wrap_child_tokens op l "lhs") l.source
        ++ " " ++ op.value ++ " "
        ++ wrapSource (wrap_child_tokens op r "rhs") r.source
  | .unary_op op e => op.value ++ e.source
  | .and_ l r => l.source ++ " and " ++ r.source
  | .or_ l r => l.source ++ " or " ++ r.source

/-!
Embedding of `src/ox/algorithms.py`.

Python is dynamically typed, so the elements of the chain passed to
`reduce_op_chain` form one universe of runtime values: numbers, operator
strings, and the tuples `(op, lhs, rhs)` produced by the default `expr`
argument `lambda *args: args`.
-/

/-- A dynamic Python value as used by `reduce_op_chain` with the default
tuple-building `expr`: integers, strings (operators) and `(op, lhs, rhs)`
tuples. -/
inductive PyVal where
  | int (n : Int)
  | str (s : String)
  | tup (op : String) (lhs rhs : PyVal)
deriving DecidableEq, Repr

/-- The default node builder `expr = lambda *args: args` of
`reduce_op_chain`: build the tuple `(op, lhs, rhs)`. -/
def defaultExpr (op : PyVal) (lhs rhs : PyVal) : PyVal :=
  match op with
  | .str s => .tup s lhs rhs
  | _ => .tup "?" lhs rhs

/-- String keys of `PYTHON_PRECEDENCE_RULES` (`src/ox/algorithms.py`, lines
5-59).  The dictionary also registers the `operator`-module functions under
the same precedences; chains in this embedding carry operators as strings,
so only the string keys are relevant. -/
def PYTHON_PRECEDENCE_RULES : String → Option Nat := fun s =>
  if s = "or" then some 1
  else if s = "and" then some 2
  else if s ∈ ["==", "!=", ">", ">=", "<", "<=", "in", "not in", "is", "is not"] then some 3
  else if s = "|" then some 4
  else if s = "^" then some 5
  else if s = "&" then some 6
  else if s ∈ [">>", "<<"] then some 7
  else if s ∈ ["+", "-"] then some 8
  else if s ∈ ["*", "/", "@", "%", "//"] then some 9
  else if s = "**" then some 10
  else none

/-- String members of `PYTHON_RIGHT_ASSOCIATIVE = frozenset({op.pow, "**"})`. -/
def PYTHON_RIGHT_ASSOCIATIVE : String → Bool := fun s => s = "**"

/-- Python tuple comparison `x > best` on the `(precedence, signed-index)`
pairs used by `reduce_op_chain` (lexicographic). -/
def pyPairGt (x best : Nat × Int) : Bool :=
  best.1 < x.1 || (x.1 = best.1 && best.2 < x.2)

/-- The accumulator loop of `max_item` (`src/ox/algorithms.py`, lines
140-144, `key=None`, no `default`): scan with strict `>` updates, so the
first occurrence of the maximum wins.  `i` is the position of the next
element, `idx`/`best` the best position and value so far. -/
def max_item_aux (i idx : Nat) (best : Nat × Int) : List (Nat × Int) → Nat × (Nat × Int)
  | [] => (idx, best)
  | x :: xs =>
      if pyPairGt x best then max_item_aux (i + 1) i x xs
      else max_item_aux (i + 1) idx best xs

/-- `max_item(seq)` from `src/ox/algorithms.py` (lines 124-153): the
`(position, value)` pair of the maximum; an empty sequence raises. -/
def max_item : List (Nat × Int) → Except String (Nat × (Nat × Int))
  | [] => .error "cannot find maximum value of empty sequence"
  | x :: xs => .ok (max_item_aux 1 0 x xs)

/-- Look up the precedence of a chain element, as `precedence[op_]` does: a
missing key (or a non-string element, which the string-keyed mapping cannot
contain) raises a `KeyError`. -/
def lookupPrecedence (precedence : Option (String → Option Nat)) : PyVal → Except String Nat
  | .str s =>
      match precedence with
      | none => .error "TypeError: NoneType is not subscriptable"
      | some table =>
          match table s with
          | some p => .ok p
          | none => .error "KeyError"
  | _ => .error "KeyError"

/-- The signed tie-break index `i if op_ in right_assoc else -i`
(`src/ox/algorithms.py`, line 111). -/
def signedIndex (isRight : Bool) (i : Nat) : Int :=
  if isRight then (i : Int) else -(i : Int)

/-- Whether a chain element belongs to the `right_assoc` container. -/
def isRightAssoc (right_assoc : String → Bool) : PyVal → Bool
  | .str s => right_assoc s
  | _ => false

/-- The list comprehension building `precedences` (`src/ox/algorithms.py`,
lines 110-112), in `enumerate` order (`i` the next position), stopping at
the first `KeyError`. -/
def buildPrecedencesAux (precedence : Option (String → Option Nat))
    (right_assoc : String → Bool) : Nat → List PyVal → Except String (List (Nat × Int))
  | _, [] => .ok []
  | i, op :: rest =>
      match lookupPrecedence precedence op with
      | .error e => .error e
      | .ok p =>
          match buildPrecedencesAux precedence right_assoc (i + 1) rest with
          | .error e => .error e
          | .ok ks => .ok ((p, signedIndex (isRightAssoc right_assoc op) i) :: ks)

/-- The `precedences` list of `reduce_op_chain`, starting at position 0. -/
def buildPrecedences (precedence : Option (String → Option Nat))
    (right_assoc : String → Bool) (ops : List PyVal) : Except String (List (Nat × Int)) :=
  buildPrecedencesAux precedence right_assoc 0 ops

/-- Elements of a list at even positions (`chain[::2]`). -/
def everyOther : List α → List α
  | [] => []
  | [x] => [x]
  | x :: _ :: rest => x :: everyOther rest

/-- The `while ops:` loop of `reduce_op_chain` (`src/ox/algorithms.py`,
lines 114-121): select the maximal `(precedence, signed-index)` pair, pop
it, splice `expr(op, lhs, rhs)` over the two operand slots and repeat.
Out-of-range accesses are Python `IndexError`s (they never occur for the
list shapes produced by a well-parity chain).  The loop runs exactly
`ops.length` times, which the `fuel` argument mirrors so that the recursion
is structural. -/
def reduceLoop (expr : PyVal → PyVal → PyVal → PyVal) :
    Nat → List PyVal → List PyVal → List (Nat × Int) → Except String PyVal
  | 0, values, ops, _ =>
      match ops with
      | _ :: _ => .error "IndexError"
      | [] =>
          match values with
          | v :: _ => .ok v
          | [] => .error "IndexError"
  | fuel + 1, values, ops, precedences =>
      match ops with
      | [] =>
          match values with
          | v :: _ => .ok v
          | [] => .error "IndexError"
      | _ :: _ =>
          match max_item precedences with
          | .error e => .error e
          | .ok (idx, _) =>
              if idx < ops.length then
                match values[idx]?, values[idx + 1]?, ops[idx]? with
                | some lhs, some rhs, some op =>
                    reduceLoop expr fuel
                      ((values.eraseIdx (idx + 1)).set idx (expr op lhs rhs))
                      (ops.eraseIdx idx)
                      (precedences.eraseIdx idx)
                | _, _, _ => .error "IndexError"
              else .error "IndexError"

/-- The input-shape error message of `reduce_op_chain`. -/
def chainShapeError : String :=
  "chain must alternate between value and operator, ending with an operator."

/-- `reduce_op_chain(chain, precedence, right_assoc, expr)` from
`src/ox/algorithms.py`, lines 66-121: reject chains of even length and the
singleton chain; default both rule tables to the Python rules when neither
is given (and only `right_assoc` to the empty set when it alone is
missing); split the chain into `values`/`ops`; build the
`(precedence, signed-index)` pairs; run the reduction loop. -/
def reduce_op_chain (chain : List PyVal)
    (precedence : Option (String → Option Nat))
    (right_assoc : Option (String → Bool))
    (expr : PyVal → PyVal → PyVal → PyVal) : Except String PyVal :=
  let n := chain.length
  if n % 2 = 0 ∨ n = 1 then .error chainShapeError
  else
    let precedence' := if precedence.isNone ∧ right_assoc.isNone
      then some PYTHON_PRECEDENCE_RULES else precedence
    let right_assoc' := match right_assoc with
      | some ra => ra
      | none => if precedence.isNone then PYTHON_RIGHT_ASSOCIATIVE else fun _ => false
    let values := everyOther chain
    let ops := everyOther (chain.drop 1)
    match buildPrecedences precedence' right_assoc' ops with
    | .error e => .error e
    | .ok precedences => reduceLoop expr ops.length values ops precedences

instance : DecidableEq (Except String PyVal) := fun a b =>
  match a, b with
  | .ok x, .ok y => decidable_of_iff (x = y) (by simp)
  | .error x, .error y => decidable_of_iff (x = y) (by simp)
  | .ok _, .error _ => isFalse (by simp)
  | .error _, .ok _ => isFalse (by simp)

/-!
Embedding of `src/ox/ast/meta_attr.py` (`Meta.children_fields`,
`Meta.children`) and `src/ox/ast/children.py`.
-/

/-- A declared field of a node type: its name and whether its annotation is
an AST type (`is_ast_type` in `src/ox/ast/meta_attr.py`). -/
structure FieldDecl where
  fname : String
  is_ast : Bool
deriving DecidableEq, Repr

/-- The `if fields and fields[0] == "tag": del fields[0]` step of
`Meta.children_fields`. -/
def dropTagField : List FieldDecl → List FieldDecl
  | [] => []
  | f :: rest => if f.fname = "tag" then rest else f :: rest

/-- The `while fields and not is_ast_type(annotations[fields[-1]]):
fields.pop()` loop: remove the maximal suffix of non-AST fields. -/
def popTrailingAttrs : List FieldDecl → List FieldDecl
  | [] => []
  | f :: rest =>
      match popTrailingAttrs rest with
      | [] => if f.is_ast then [f] else []
      | r :: rs => f :: r :: rs

/-- The contiguity error message raised by `Meta.children_fields`. -/
def contiguityError : String :=
  "invalid configuration: all children fields must be declared contiguously"

/-- `Meta.children_fields` from `src/ox/ast/meta_attr.py`, lines 37-53:
drop a leading `tag` field, pop trailing non-AST fields, and fail if a
non-AST field remains among the rest. -/
def children_fields (fields : List FieldDecl) : Except String (List String) :=
  let fs := popTrailingAttrs (dropTagField fields)
  if fs.any (fun f => !f.is_ast) then .error contiguityError
  else .ok (fs.map (·.fname))

/-- `Meta.children` from `src/ox/ast/meta_attr.py`, lines 225-229: the
names of all fields whose annotation is an AST type. -/
def metaChildren (fields : List FieldDecl) : List String :=
  (fields.filter (·.is_ast)).map (·.fname)

/-- The specialized children class built by `make_children_class`
(`src/ox/ast/children.py`, lines 55-66): it stores the tuple of child
attribute names; `_n_children` is its length. -/
structure ChildrenCls where
  attrs : List String
deriving Repr

/-- `make_children_class(meta)`: `_attrs = tuple(meta.children())`. -/
def make_children_class (fields : List FieldDecl) : ChildrenCls :=
  ⟨metaChildren fields⟩

/-- `ChildrenBase.__len__` (`src/ox/ast/children.py`, lines 27-28): the
fixed `_n_children` of the class. -/
def ChildrenCls.len (c : ChildrenCls) : Nat := c.attrs.length

/-- The error produced by `size_error()` in `src/ox/ast/children.py`. -/
def childrenSizeError : String := "cannot change the size of children list!"

/-- `ChildrenBase.insert` (`src/ox/ast/children.py`, lines 51-52): every
insertion attempt raises the size error. -/
def ChildrenCls.insert (_c : ChildrenCls) (_index : Nat) (_obj : Expr) : Except String Unit :=
  .error childrenSizeError

/-- `ChildrenBase.__delitem__` (`src/ox/ast/children.py`, lines 24-25):
every deletion attempt raises the size error. -/
def ChildrenCls.delitem (_c : ChildrenCls) (_index : Nat) : Except String Unit :=
  .error childrenSizeError

/-- The declared field list of `BinOp` (`tag: BinaryOpEnum; lhs: Expr;
rhs: Expr` in `src/ox/target/python/expr_ast.py`). -/
def binOpFields : List FieldDecl :=
  [⟨"tag", false⟩, ⟨"lhs", true⟩, ⟨"rhs", true⟩]

/-- The declared field list of `UnaryOp` (`tag: UnaryOpEnum; expr: Expr`). -/
def unaryOpFields : List FieldDecl :=
  [⟨"tag", false⟩, ⟨"expr", true⟩]

/-- The declared field list of `And` and `Or` (`lhs: Expr; rhs: Expr`). -/
def andOrFields : List FieldDecl :=
  [⟨"lhs", true⟩, ⟨"rhs", true⟩]

/-- The children exposed by a node's children sequence: the values of its
child attributes in declaration order (`ChildrenBase.__iter__`). -/
def Expr.childrenList : Expr → List Expr
  | .atom _ => []
  | .name _ => []
  | .binop _ l r => [l, r]
  | .unary_op _ e => [e]
  | .and_ l r => [l, r]
  | .or_ l r => [l, r]

/-!
Object-level model for claims about parent links and object identity.

Python objects have identity and a mutable `_parent` slot; the embedding
gives every object an allocation id and an explicit parent pointer.  The
allocator invariant is that every live object's id is below the allocation
counter; freshly built objects take ids at and above it.
-/

/-- An expression object of the Python-target hierarchy together with its
identity and parent link: `Atom`/`Name` leaves, `Token` leaves
(`src/ox/ast/token.py`, value and type tag), and `BinOp` nodes.  `oid` is
the object identity, `parent` the `_parent` slot, `attrs` the `_attrs`
dictionary. -/
inductive Obj where
  | atom (oid : Nat) (parent : Option Nat) (v : Int) (attrs : List (String × Int))
  | name (oid : Nat) (parent : Option Nat) (s : String) (attrs : List (String × Int))
  | token (oid : Nat) (parent : Option Nat) (value : String) (ttype : String)
      (attrs : List (String × Int))
  | binop (oid : Nat) (parent : Option Nat) (op : BinaryOp)
      (attrs : List (String × Int)) (lhs rhs : Obj)
deriving DecidableEq, Repr

/-- The object id. -/
def Obj.oidOf : Obj → Nat
  | .atom i _ _ _ => i
  | .name i _ _ _ => i
  | .token i _ _ _ _ => i
  | .binop i _ _ _ _ _ => i

/-- The `_parent` slot. -/
def Obj.parentOf : Obj → Option Nat
  | .atom _ p _ _ => p
  | .name _ p _ _ => p
  | .token _ p _ _ _ => p
  | .binop _ p _ _ _ _ => p

/-- The `_attrs` dictionary. -/
def Obj.attrsOf : Obj → List (String × Int)
  | .atom _ _ _ a => a
  | .name _ _ _ a => a
  | .token _ _ _ _ a => a
  | .binop _ _ _ a _ _ => a

/-- The `tag` of a node (`BinOp._tag`, the operator enum member); leaves
have no tag field. -/
def Obj.tagOf : Obj → Option BinaryOp
  | .binop _ _ op _ _ _ => some op
  | _ => none

/-- The `_type` tag of a `Token` leaf. -/
def Obj.tokenTypeOf : Obj → Option String
  | .token _ _ _ t _ => some t
  | _ => none

/-- All object ids occurring in a tree. -/
def Obj.oids : Obj → List Nat
  | .atom i _ _ _ => [i]
  | .name i _ _ _ => [i]
  | .token i _ _ _ _ => [i]
  | .binop i _ _ _ l r => i :: (l.oids ++ r.oids)

/-- Structural equality of the hierarchy (`SExprBase.__eq__` for nodes:
same type, same tag, equal children; leaf equality compares type and value,
and `Token.__eq__` additionally compares the type tag).  Identity, parent
links and attributes are not compared. -/
def Obj.structEq : Obj → Obj → Bool
  | .atom _ _ v _, .atom _ _ w _ => v = w
  | .name _ _ s _, .name _ _ t _ => s = t
  | .token _ _ v t _, .token _ _ w u _ => decide (v = w) && decide (t = u)
  | .binop _ _ op _ l r, .binop _ _ op' _ l' r' =>
      decide (op = op') && l.structEq l' && r.structEq r'
  | _, _ => false

/-- Deep copy, `Node.copy` via `_simplify_or_copy`
(`src/ox/ast/ast_base.py`, lines 149-164) together with the leaf copies
(`Token.copy` in `src/ox/ast/token.py` preserves `_type`; the underlying
sidekick `Leaf.copy` produces a parentless leaf with the same value and
attributes, per the spec's `copy()` contract — the sidekick library is an
external dependency, not part of this repository).  Every call allocates a
fresh object (`object.__new__`), sets `_parent` to `None`, shallow-copies
`_attrs`, copies the tag, and recursively copies each child.  `ctr` is the
allocation counter; the returned counter is past every id handed out. -/
def Obj.copy : Obj → Nat → Obj × Nat
  | .atom _ _ v a, ctr => (.atom ctr none v a, ctr + 1)
  | .name _ _ s a, ctr => (.name ctr none s a, ctr + 1)
  | .token _ _ v t a, ctr => (.token ctr none v t a, ctr + 1)
  | .binop _ _ op a l r, ctr =>
      let lc := l.copy (ctr + 1)
      let rc := r.copy lc.2
      (.binop ctr none op a lc.1 rc.1, rc.2)

/-!
Embedding of the generated node constructor, `_node_init_method` in
`src/ox/ast/ast_meta.py` (lines 128-161): the child-argument loop.
-/

/-- The ownership-violation error raised by `_node_init_method`. -/
def ownershipError : String := "node already has parent"

/-- Attach a parent to an object (the `child._parent = self` assignment in
`_node_init_method`). -/
def Obj.withParent (p : Option Nat) : Obj → Obj
  | .atom i _ v a => .atom i p v a
  | .name i _ s a => .name i p s a
  | .token i _ v t a => .token i p v t a
  | .binop i _ op a l r => .binop i p op a l r

/-- The `for attr, child in zip(children, args_iter)` loop of
`_node_init_method`: each child argument must be unparented, in which case
its `_parent` slot becomes the node under construction (`selfId`); a child
that already has a parent raises a `ValueError` and no node is produced. -/
def node_init_children (selfId : Nat) : List Obj → Except String (List Obj)
  | [] => .ok []
  | c :: rest =>
      match c.parentOf with
      | none =>
          (node_init_children selfId rest).map (c.withParent (some selfId) :: ·)
      | some _ => .error ownershipError

/-!
Embedding of `simplify` / `static_value` (`src/ox/ast/ast_base.py`) and of
the type-specific `from_static_children` implementations
(`src/ox/target/python/expr_ast.py`).
-/

/-- `AST.static_value` (`src/ox/ast/ast_base.py`, lines 60-68) returns
`Maybe.Nothing`.  No class in the repository overrides it (`grep` finds no
other definition and `has_static_value` is never set to `True`), so every
node and leaf — including `Atom` — reports an unknown static value. -/
def static_value (_e : Expr) : Option Int := none

/-- The integer semantics of the arithmetic operator functions from
`BinaryOp.function_mapping` (`src/ox/target/python/operators.py`):
`op.add`, `op.sub`, `op.mul` on Python integers.  The remaining operators
(division, shifts, bitwise and boolean forms) are not needed by the claims
and are left out of the integer universe (`none`). -/
def BinaryOp.function : BinaryOp → Int → Int → Option Int
  | .ADD, a, b => some (a + b)
  | .SUB, a, b => some (a - b)
  | .MUL, a, b => some (a * b)
  | _, _, _ => none

/-- The type-specific `from_static_children` dispatch: for `BinOp`
(`src/ox/target/python/expr_ast.py`, lines 231-232) it is
`to_expr(self.tag.function(lhs, rhs))`, and the hierarchy coercion turns an
integer into an `Atom`; `And`/`Or` replicate Python's short-circuit
semantics (`to_expr(lhs and rhs)` / `to_expr(lhs or rhs)`, with integer
truthiness); `UnaryOp.from_static_children` accesses `self.tag.function`,
an attribute the `UnaryOp` enum does not define, so it raises; leaves take
no child values. -/
def from_static_children : Expr → List Int → Except String Expr
  | .binop op _ _, [a, b] =>
      match op.function a b with
      | some v => .ok (.atom v)
      | none => .error "unsupported operator function"
  | .and_ _ _, [a, b] => .ok (.atom (if a ≠ 0 then b else a))
  | .or_ _ _, [a, b] => .ok (.atom (if a ≠ 0 then a else b))
  | .unary_op _ _, [_] => .error "AttributeError: function"
  | _, _ => .error "TypeError: wrong arity"

/-- The `for child in self.children: ... else:` loop of `Node.simplify`
(`src/ox/ast/ast_base.py`, lines 167-174): collect each child's static
value in order, stopping at the first unknown one; only when every child is
known does the `else` branch fire. -/
def collectStatic : List Expr → Option (List Int)
  | [] => some []
  | c :: rest =>
      match static_value c with
      | some v => (collectStatic rest).map (v :: ·)
      | none => none

/-- `simplify` (`src/ox/ast/ast_base.py`): leaves use `AST.simplify`,
which returns `self.copy()`; nodes use `Node.simplify`, which folds via
`from_static_children` when every child's static value is known and
otherwise rebuilds the node with recursively simplified children
(`_simplify_or_copy`). -/
def simplify : Expr → Except String Expr
  | .atom v => .ok (.atom v)
  | .name s => .ok (.name s)
  | .binop op l r =>
      match collectStatic (Expr.childrenList (.binop op l r)) with
      | some args => from_static_children (.binop op l r) args
      | none => do
          let l' ← simplify l
          let r' ← simplify r
          .ok (.binop op l' r')
  | .unary_op op e =>
      match collectStatic (Expr.childrenList (.unary_op op e)) with
      | some args => from_static_children (.unary_op op e) args
      | none => do
          let e' ← simplify e
          .ok (.unary_op op e')
  | .and_ l r =>
      match collectStatic (Expr.childrenList (.and_ l r)) with
      | some args => from_static_children (.and_ l r) args
      | none => do
          let l' ← simplify l
          let r' ← simplify r
          .ok (.and_ l' r')
  | .or_ l r =>
      match collectStatic (Expr.childrenList (.or_ l r)) with
      | some args => from_static_children (.or_ l r) args
      | none => do
          let l' ← simplify l
          let r' ← simplify r
          .ok (.or_ l' r')

/-!
Embedding of `free_vars`.

`Expr.free_vars(self, exclude=(), include=())` in `src/ox/ast/ast_core.py`
(lines 78-88) initializes `vars = set(include)`, returns it directly for
leaves, and for composite nodes computes each child's
`child.free_vars(exclude, include)` into a local `xs`, subtracts the
exclusions from `xs` — and then discards `xs`, returning `vars` unchanged.

`NameMixin.free_vars(self, include=(), exclude=())` in
`src/ox/ast/ast_mixins.py` (lines 23-26) — note the swapped parameter
order — returns `{self.value} - exclude`.

Both are modelled by one function taking the two positional arguments in
call order (`arg1`, `arg2`): a parent passes `(exclude, include)`
positionally, so at a `Name` child `arg2` lands in its `exclude`
parameter.
-/

/-- `free_vars` dispatch over the hierarchy, with `arg1`/`arg2` the first
and second positional argument.  `Name` leaves use the `NameMixin`
override; every other leaf and every composite node uses `Expr.free_vars`,
whose loop result is computed and dropped, so composites return
`set(include)` = `arg2`. -/
def free_vars (e : Expr) (arg1 arg2 : Finset String) : Finset String :=
  match e with
  | .name s => {s} \ arg2
  | .atom _ => arg2
  | .binop _ l r =>
      let _ := (free_vars l arg1 arg2) \ arg1
      let _ := (free_vars r arg1 arg2) \ arg1
      arg2
  | .unary_op _ e' =>
      let _ := (free_vars e' arg1 arg2) \ arg1
      arg2
  | .and_ l r =>
      let _ := (free_vars l arg1 arg2) \ arg1
      let _ := (free_vars r arg1 arg2) \ arg1
      arg2
  | .or_ l r =>
      let _ := (free_vars l arg1 arg2) \ arg1
      let _ := (free_vars r arg1 arg2) \ arg1
      arg2

/-!
Round-trip machinery for the representative expression grammar.

The printing side is the embedding of the real printer (`Expr.source`
above).  The parsing side is modelled from the spec: the repository builds
its parsers by feeding a synthesized grammar text to the external Lark LALR
engine (`src/ox/parser.py`), which is a third-party dependency, not code of
this repository.  The representative grammar is the standard arithmetic
one used by the repository's own tests and example
(`src/tests/test_grammar.py`, `src/examples/calculator.py`):

  expr : expr "+" term | term
  term : term "*" atom | atom
  atom : NAME | NUMBER | "(" expr ")"

with `NAME = [a-z]+`, `NUMBER = \d+` and whitespace ignored.  The model is
a deterministic lexer plus a recursive-descent parser equivalent to the
LALR automaton for this unambiguous left-recursive grammar.
-/

/-- Tokens of the representative grammar. -/
inductive Tok where
  | plus | star | lpar | rpar
  | ident (s : String)
  | num (n : Nat)
deriving DecidableEq, Repr

/-- Lower-case ASCII letter test (the `NAME` character class). -/
def isLowerAlpha (c : Char) : Bool := 'a' ≤ c && c ≤ 'z'

/-- Numeric value of a digit string. -/
def digitsToNat (ds : List Char) : Nat :=
  ds.foldl (fun n c => 10 * n + (c.toNat - '0'.toNat)) 0

/-- Modelled from the spec: the maximal-munch tokenizer for the
representative grammar (the real lexer is generated through the external
Lark engine).  Whitespace is skipped; an unexpected character fails.  Each
step consumes at least one character, so a fuel of the input length makes
the recursion structural without changing the result. -/
def lexChars : Nat → List Char → Option (List Tok)
  | _, [] => some []
  | 0, _ :: _ => none
  | fuel + 1, c :: cs =>
      if c = ' ' then lexChars fuel cs
      else if c = '+' then (lexChars fuel cs).map (Tok.plus :: ·)
      else if c = '*' then (lexChars fuel cs).map (Tok.star :: ·)
      else if c = '(' then (lexChars fuel cs).map (Tok.lpar :: ·)
      else if c = ')' then (lexChars fuel cs).map (Tok.rpar :: ·)
      else if c.isDigit then
        (lexChars fuel ((c :: cs).dropWhile Char.isDigit)).map
          (Tok.num (digitsToNat ((c :: cs).takeWhile Char.isDigit)) :: ·)
      else if isLowerAlpha c then
        (lexChars fuel ((c :: cs).dropWhile isLowerAlpha)).map
          (Tok.ident (String.mk ((c :: cs).takeWhile isLowerAlpha)) :: ·)
      else none

/-- Tokenize a source string. -/
def lexSource (s : String) : Option (List Tok) :=
  lexChars s.data.length s.data

mutual

/-- Modelled from the spec: the `expr` nonterminal (`expr : expr "+" term |
term`).  A deterministic parser for the left-recursive rule: parse one
`term`, then left-fold further `"+" term` continuations. -/
def parseExprF : Nat → List Tok → Option (Expr × List Tok)
  | 0, _ => none
  | fuel + 1, ts =>
      match parseTermF fuel ts with
      | some (t, ts1) => parseExprLoop fuel t ts1
      | none => none

/-- The left-folding continuation loop of the `expr` rule. -/
def parseExprLoop : Nat → Expr → List Tok → Option (Expr × List Tok)
  | 0, _, _ => none
  | fuel + 1, acc, .plus :: ts =>
      match parseTermF fuel ts with
      | some (t, ts1) => parseExprLoop fuel (.binop .ADD acc t) ts1
      | none => none
  | _ + 1, acc, ts => some (acc, ts)

/-- Modelled from the spec: the `term` nonterminal (`term : term "*" atom |
atom`). -/
def parseTermF : Nat → List Tok → Option (Expr × List Tok)
  | 0, _ => none
  | fuel + 1, ts =>
      match parseAtomF fuel ts with
      | some (a, ts1) => parseTermLoop fuel a ts1
      | none => none

/-- The left-folding continuation loop of the `term` rule. -/
def parseTermLoop : Nat → Expr → List Tok → Option (Expr × List Tok)
  | 0, _, _ => none
  | fuel + 1, acc, .star :: ts =>
      match parseAtomF fuel ts with
      | some (a, ts1) => parseTermLoop fuel (.binop .MUL acc a) ts1
      | none => none
  | _ + 1, acc, ts => some (acc, ts)

/-- Modelled from the spec: the `atom` nonterminal (`atom : NAME | NUMBER |
"(" expr ")"`), producing `Name` and `Atom` nodes like the semantic actions
of the representative grammar. -/
def parseAtomF : Nat → List Tok → Option (Expr × List Tok)
  | 0, _ => none
  | _ + 1, .ident s :: ts => some (.name s, ts)
  | _ + 1, .num n :: ts => some (.atom (n : Int), ts)
  | fuel + 1, .lpar :: ts =>
      match parseExprF fuel ts with
      | some (e, .rpar :: ts1) => some (e, ts1)
      | _ => none
  | _ + 1, _ => none

end

/-- Modelled from the spec: `parse(source)` for the representative grammar
— tokenize, run the `expr` start rule with ample fuel, and require the
whole token stream to be consumed. -/
def parseSource (s : String) : Option Expr :=
  match lexSource s with
  | some ts =>
      match parseExprF (9 * ts.length + 9) ts with
      | some (e, []) => some e
      | _ => none
  | none => none

/-- The expressions constructible for the representative grammar: names of
lower-case letters, single-digit integer atoms, and `BinOp` nodes over `+`
and `*`. -/
def inFragment : Expr → Bool
  | .atom v => decide (0 ≤ v) && decide (v < 10)
  | .name s => !s.data.isEmpty && s.data.all isLowerAlpha
  | .binop .ADD l r => inFragment l && inFragment r
  | .binop .MUL l r => inFragment l && inFragment r
  | _ => false

/-- Canonical nesting: no right child of a binary operator is a binary
operator of the same precedence.  Chains of one precedence level are
left-nested, exactly the shape the grammar's left-recursive rules
produce. -/
def canonical : Expr → Bool
  | .binop op l r =>
      canonical l && canonical r &&
      (match r with
       | .binop o2 _ _ => decide (o2.precedence_level ≠ op.precedence_level)
       | _ => true)
  | _ => true

/-- The token of a fragment operator. -/
def opTok : BinaryOp → Tok
  | .MUL => .star
  | _ => .plus

/-- Parenthesis wrapping at the token level (the effect of `wrap_tokens` on
the lexed output). -/
def wrapToks (w : Bool) (ts : List Tok) : List Tok :=
  if w then .lpar :: ts ++ [.rpar] else ts

/-- The token stream of a printed fragment expression: the lexer's view of
`Expr.source`, with the parentheses the printer's wrap decisions insert. -/
def flatToks : Expr → List Tok
  | .atom v => [.num v.toNat]
  | .name s => [.ident s]
  | .binop op l r =>
      wrapToks (wrap_child_tokens op l "lhs") (flatToks l)
        ++ opTok op :: wrapToks (wrap_child_tokens op r "rhs") (flatToks r)
  | _ => []

/-- Whether an expression is an addition node (the only fragment nodes the
printer wraps inside a multiplication). -/
def isAddNode : Expr → Bool
  | .binop .ADD _ _ => true
  | _ => false

/-- Whether an expression is a multiplication node. -/
def isMulNode : Expr → Bool
  | .binop .MUL _ _ => true
  | _ => false

/-- The token stream of an expression at an atom position of the grammar:
binary-operator nodes appear parenthesized there. -/
def atomToks (e : Expr) : List Tok :=
  wrapToks (isAddNode e) (flatToks e)

/-- The leftmost term of a printed addition chain. -/
def chainHead : Expr → Expr
  | .binop .ADD l _ => chainHead l
  | e => e

/-- The remaining terms of a printed addition chain, left to right. -/
def chainTail : Expr → List Expr
  | .binop .ADD l r => chainTail l ++ [r]
  | _ => []

/-- The leftmost factor of a printed multiplication chain. -/
def mulHead : Expr → Expr
  | .binop .MUL l _ => mulHead l
  | e => e

/-- The remaining factors of a printed multiplication chain. -/
def mulTail : Expr → List Expr
  | .binop .MUL l r => mulTail l ++ [r]
  | _ => []

/-- A head condition on the character continuation of a lexed piece: the
next character must not extend a name or a number (maximal munch). -/
def noMunch : List Char → Prop
  | [] => True
  | c :: _ => ¬(c.isDigit = true ∨ isLowerAlpha c = true)

/-- The continuation does not begin with a `*` token. -/
def noStarHead (ts : List Tok) : Prop := ts.head? ≠ some Tok.star

/-- The continuation does not begin with a `+` token. -/
def noPlusHead (ts : List Tok) : Prop := ts.head? ≠ some Tok.plus

/-- Structural size of an expression, used for the parser fuel bounds. -/
def Expr.esize : Expr → Nat
  | .atom _ => 1
  | .name _ => 1
  | .binop _ l r => l.esize + r.esize + 1
  | .unary_op _ e => e.esize + 1
  | .and_ l r => l.esize + r.esize + 1
  | .or_ l r => l.esize + r.esize + 1

/-- Fuel cost bound of parsing an expression's token stream. -/
def pcost : Expr → Nat
  | .atom _ => 1
  | .name _ => 1
  | .binop _ l r => pcost l + pcost r + 8
  | .unary_op _ e => pcost e + 8
  | .and_ l r => pcost l + pcost r + 8
  | .or_ l r => pcost l + pcost r + 8

/-- Fuel cost bound of parsing at an atom position (a parenthesized
operator node needs one extra step plus the expression cost). -/
def pcostA : Expr → Nat
  | .binop op l r => pcost (.binop op l r) + 5
  | _ => 1

/-- A custom precedence table making `^` a known operator (the way the
spec's exponentiation example equips the chain reducer). -/
def caretPrecedence : String → Option Nat := fun s =>
  if s = "^" then some 10 else none

/-- A custom right-associativity set containing `^`. -/
def caretRightAssoc : String → Bool := fun s => s = "^"

/-- The `(precedence, signed-index)` keys `reduce_op_chain` builds for an
operator list and the original positions the operators occupy. -/
def mkKeys (prec : String → Nat) (rA : String → Bool)
    (ops : List String) (idxs : List Nat) : List (Nat × Int) :=
  List.zipWith (fun o i => (prec o, signedIndex (rA o) i)) ops idxs

/-- The token stream of the `+`-separated continuation of a printed
addition chain. -/
def plusToks : List Expr → List Tok
  | [] => []
  | t :: l => Tok.plus :: flatToks t ++ plusToks l

/-- The token stream of the `*`-separated continuation of a printed
multiplication chain. -/
def starToks : List Expr → List Tok
  | [] => []
  | t :: l => Tok.star :: atomToks t ++ starToks l

/-- Fuel budget of the expr-rule continuation loop over a chain tail. -/
def plusCost : List Expr → Nat
  | [] => 0
  | t :: l => pcost t + 3 + plusCost l

/-- Fuel budget of the term-rule continuation loop over a chain tail. -/
def starCost : List Expr → Nat
  | [] => 0
  | t :: l => pcostA t + 1 + starCost l

/-- Left-nested rebuilding of an addition chain from a head and a tail,
mirroring the accumulator of the expr-rule loop. -/
def rebuildAdd : Expr → List Expr → Expr
  | acc, [] => acc
  | acc, t :: l => rebuildAdd (Expr.binop .ADD acc t) l

/-- Left-nested rebuilding of a multiplication chain from a head and a
tail, mirroring the accumulator of the term-rule loop. -/
def rebuildMul : Expr → List Expr → Expr
  | acc, [] => acc
  | acc, t :: l => rebuildMul (Expr.binop .MUL acc t) l

/-!
Theorems.
-/

/-- C3: when printing a `BinOp` node, a child is wrapped in parentheses iff
it is itself a `BinOp` of strictly lower precedence than the parent, or a
`UnaryOp`/`And`/`Or` node (the families that always need wrapping inside
arithmetic); equal-precedence `BinOp` children are never wrapped, so
`BinOp(MUL, BinOp(ADD, Name("x"), Atom(1)), BinOp(MUL, Name("y"),
Atom(2)))` prints exactly as `"(x + 1) * y * 2"`. -/
theorem binop_wrap_iff_and_print_example :
    (∀ (parent : BinaryOp) (child : Expr) (role : String),
      wrap_child_tokens parent child role = true ↔
        ((∃ op l r, child = .binop op l r ∧
            op.precedence_level < parent.precedence_level) ∨
         (∃ op e, child = .unary_op op e) ∨
         (∃ l r, child = .and_ l r) ∨
         (∃ l r, child = .or_ l r)))
    ∧ Expr.source (.binop .MUL (.binop .ADD (.name "x") (.atom 1))
        (.binop .MUL (.name "y") (.atom 2))) = "(x + 1) * y * 2" := by
  constructor
  · intro parent child role
    cases child <;> simp [wrap_child_tokens]
  · decide

/-- C10: the children sequence of a constructed node has exactly as many
elements as the type declares child fields (its length is the fixed
`_n_children` of the generated children class), and every `insert` or
`__delitem__` attempt raises the size error, so no operation can change a
node's arity after construction. -/
theorem children_arity_is_fixed :
    (∀ fields, (make_children_class fields).len = (metaChildren fields).length)
    ∧ (∀ fields i x, (make_children_class fields).insert i x = .error childrenSizeError)
    ∧ (∀ fields i, (make_children_class fields).delitem i = .error childrenSizeError)
    ∧ (∀ op l r, (Expr.childrenList (.binop op l r)).length
        = (make_children_class binOpFields).len)
    ∧ (∀ op e, (Expr.childrenList (.unary_op op e)).length
        = (make_children_class unaryOpFields).len)
    ∧ (∀ l r, (Expr.childrenList (.and_ l r)).length
        = (make_children_class andOrFields).len)
    ∧ (∀ l r, (Expr.childrenList (.or_ l r)).length
        = (make_children_class andOrFields).len) :=
  ⟨fun _ => rfl, fun _ _ _ => rfl, fun _ _ => rfl, fun _ _ _ => rfl,
   fun _ _ => rfl, fun _ _ => rfl, fun _ _ => rfl⟩

theorem popTrailingAttrs_eq_nil_iff (fs : List FieldDecl) :
    popTrailingAttrs fs = [] ↔ ∀ f ∈ fs, f.is_ast = false := by
  induction fs with
  | nil => simp [popTrailingAttrs]
  | cons f rest ih =>
      cases hr : popTrailingAttrs rest with
      | nil =>
          by_cases hf : f.is_ast <;>
            simp_all [popTrailingAttrs, hr]
      | cons r rs =>
          simp only [popTrailingAttrs, hr]
          constructor
          · intro h; cases h
          · intro h
            have : popTrailingAttrs rest = [] := ih.mpr fun g hg => h g (by simp [hg])
            rw [this] at hr; cases hr

theorem pairwise_attr_of_all_attr (l : List FieldDecl)
    (h : ∀ g ∈ l, g.is_ast = false) :
    l.Pairwise (fun f g => f.is_ast = false → g.is_ast = false) := by
  induction l with
  | nil => exact List.Pairwise.nil
  | cons a t ih =>
      exact List.Pairwise.cons (fun b hb _ => h b (by simp [hb]))
        (ih fun g hg => h g (by simp [hg]))

theorem popTrailingAttrs_all_ast_iff (fs : List FieldDecl) :
    (popTrailingAttrs fs).all (·.is_ast) = true ↔
      fs.Pairwise (fun f g => f.is_ast = false → g.is_ast = false) := by
  induction fs with
  | nil => simp [popTrailingAttrs]
  | cons f rest ih =>
      cases hr : popTrailingAttrs rest with
      | nil =>
          have hall : ∀ g ∈ rest, g.is_ast = false :=
            (popTrailingAttrs_eq_nil_iff rest).mp hr
          have heq : popTrailingAttrs (f :: rest)
              = if f.is_ast then [f] else [] := by
            simp [popTrailingAttrs, hr]
          rw [heq]
          constructor
          · intro _
            exact List.Pairwise.cons (fun g hg _ => hall g hg)
              (pairwise_attr_of_all_attr rest hall)
          · intro _
            by_cases hf : f.is_ast <;> simp [hf]
      | cons r rs =>
          have hex : ∃ g ∈ rest, g.is_ast = true := by
            by_contra hno
            push_neg at hno
            have : popTrailingAttrs rest = [] :=
              (popTrailingAttrs_eq_nil_iff rest).mpr (by
                intro g hg
                exact Bool.eq_false_iff.mpr fun ht => (hno g hg) ht)
            rw [this] at hr; cases hr
          have heq : popTrailingAttrs (f :: rest) = f :: r :: rs := by
            simp [popTrailingAttrs, hr]
          rw [heq, List.all_cons, ← hr, List.pairwise_cons, Bool.and_eq_true, ih]
          constructor
          · rintro ⟨hf, hrest⟩
            exact ⟨fun g _ hfa => absurd hfa (by simp [hf]), hrest⟩
          · rintro ⟨hhead, hrest⟩
            obtain ⟨g, hg, hgt⟩ := hex
            have hf : f.is_ast = true := by
              by_contra hfa
              have := hhead g hg (Bool.eq_false_iff.mpr hfa)
              rw [this] at hgt; cases hgt
            exact ⟨hf, hrest⟩

/-- C9 counterexample: a node type whose single child field trails a single
attribute field — the children form a contiguous trailing block, which the
claim says must succeed — raises the contiguity error. -/
theorem children_fields_trailing_block_fails :
    children_fields [⟨"flag", false⟩, ⟨"child", true⟩] = .error contiguityError := by
  rfl

/-- C9 (amended): a node type declaration succeeds iff, after the optional
leading `tag` field, no AST-typed (child) field follows a non-AST
(attribute) field — i.e. the child fields form one contiguous leading
block; in every other arrangement (including a contiguous trailing block
after an attribute) `Meta.children_fields` raises the contiguity error at
type-construction time. -/
theorem children_fields_ok_iff_leading_block (fields : List FieldDecl) :
    (children_fields fields).isOk = true ↔
      (dropTagField fields).Pairwise
        (fun f g => f.is_ast = false → g.is_ast = false) := by
  rw [← popTrailingAttrs_all_ast_iff]
  unfold children_fields
  cases hany : (popTrailingAttrs (dropTagField fields)).any (fun f => !f.is_ast) with
  | false =>
      simp only [hany, Bool.false_eq_true, if_false, Except.isOk, Except.toBool,
        true_iff]
      rw [List.all_eq_true]
      intro f hf
      have := List.any_eq_false.mp hany f hf
      simpa using this
  | true =>
      simp only [hany, if_true, Except.isOk, Except.toBool]
      obtain ⟨f, hf, hfa⟩ := List.any_eq_true.mp hany
      refine iff_of_false (by simp) fun hall => ?_
      have := List.all_eq_true.mp hall f hf
      simp_all

/-- C4: constructing a node with a child argument whose parent link is
already set fails with the ownership-violation error (no node is
produced), while construction from fresh, unparented children succeeds and
sets each child's parent to the newly constructed node. -/
theorem node_init_ownership (selfId : Nat) (args : List Obj) :
    ((∃ c ∈ args, c.parentOf ≠ none) →
      node_init_children selfId args = .error ownershipError)
    ∧ ((∀ c ∈ args, c.parentOf = none) →
      node_init_children selfId args
          = .ok (args.map (Obj.withParent (some selfId)))
        ∧ ∀ c' ∈ args.map (Obj.withParent (some selfId)),
            c'.parentOf = some selfId) := by
  constructor
  · rintro ⟨c, hc, hp⟩
    induction args with
    | nil => cases hc
    | cons a rest ih =>
        rcases List.mem_cons.mp hc with rfl | hc
        · cases hpa : c.parentOf with
          | none => exact absurd hpa hp
          | some q => simp [node_init_children, hpa]
        · cases hpa : a.parentOf with
          | none => simp [node_init_children, hpa, ih hc, Except.map]
          | some q => simp [node_init_children, hpa]
  · intro hall
    constructor
    · induction args with
      | nil => rfl
      | cons a rest ih =>
          have ha := hall a (by simp)
          have hrest := ih fun c hc => hall c (by simp [hc])
          simp [node_init_children, ha, hrest, Except.map]
    · intro c' hc'
      obtain ⟨c, _, rfl⟩ := List.mem_map.mp hc'
      cases c <;> rfl

/-- C4 witness: a parented child is rejected; the same tree from fresh
children succeeds with the parent links set. -/
theorem node_init_ownership_witness :
    node_init_children 7 [.atom 1 (some 3) 5 []] = .error ownershipError
    ∧ node_init_children 7 [.atom 1 none 5 []]
        = .ok [.atom 1 (some 7) 5 []] := by
  refine ⟨(node_init_ownership 7 [.atom 1 (some 3) 5 []]).1
    ⟨Obj.atom 1 (some 3) 5 [], by simp, by simp [Obj.parentOf]⟩, ?_⟩
  exact ((node_init_ownership 7 [.atom 1 none 5 []]).2 (by simp [Obj.parentOf])).1

/-- C5: `simplify` never constant-folds, because `static_value` is the
`AST` default (`Nothing`) for every node type — no class overrides it — so
the all-children-known branch of `Node.simplify` is unreachable and
`simplify` always returns a structurally identical deep copy.  In
particular `BinOp(ADD, Atom(2), Atom(3)).simplify()` returns the node
itself, not `Atom(5)`, even though `BinOp.from_static_children` would have
produced `Atom(5)`; the `Name` example of the claim does hold. -/
theorem simplify_never_folds :
    (∀ e, simplify e = .ok e)
    ∧ simplify (.binop .ADD (.atom 2) (.atom 3))
        = .ok (.binop .ADD (.atom 2) (.atom 3))
    ∧ simplify (.binop .ADD (.atom 2) (.atom 3)) ≠ .ok (.atom 5)
    ∧ from_static_children (.binop .ADD (.atom 2) (.atom 3)) [2, 3]
        = .ok (.atom 5)
    ∧ simplify (.binop .ADD (.name "x") (.atom 3))
        = .ok (.binop .ADD (.name "x") (.atom 3)) := by
  have hall : ∀ e, simplify e = .ok e := by
    intro e
    induction e with
    | atom v => rfl
    | name s => rfl
    | binop op l r ihl ihr =>
        simp only [simplify, Expr.childrenList, collectStatic, static_value, ihl, ihr]
        rfl
    | unary_op op e ih =>
        simp only [simplify, Expr.childrenList, collectStatic, static_value, ih]
        rfl
    | and_ l r ihl ihr =>
        simp only [simplify, Expr.childrenList, collectStatic, static_value, ihl, ihr]
        rfl
    | or_ l r ihl ihr =>
        simp only [simplify, Expr.childrenList, collectStatic, static_value, ihl, ihr]
        rfl
  exact ⟨hall, hall _, by simp [hall], rfl, hall _⟩

/-- C8: composite `free_vars` returns only the inclusions — the children's
free-variable sets are computed and then discarded (`Expr.free_vars` never
unions `xs` into `vars`) — so a composite node with a free name below it
reports nothing: `BinOp(ADD, Name("x"), Atom(1)).free_vars()` is empty
rather than `{"x"}` (the repository's own test
`test_python.py::TestUtilities::test_free_vars` expects `{"x", "y"}` from
such a node).  Only a bare `Name` leaf reports itself. -/
theorem free_vars_discards_children :
    (∀ (s : String) (a1 a2 : Finset String), free_vars (.name s) a1 a2 = {s} \ a2)
    ∧ (∀ (v : Int) (a1 a2 : Finset String), free_vars (.atom v) a1 a2 = a2)
    ∧ (∀ op l r (a1 a2 : Finset String), free_vars (.binop op l r) a1 a2 = a2)
    ∧ (∀ op e (a1 a2 : Finset String), free_vars (.unary_op op e) a1 a2 = a2)
    ∧ (∀ l r (a1 a2 : Finset String), free_vars (.and_ l r) a1 a2 = a2)
    ∧ (∀ l r (a1 a2 : Finset String), free_vars (.or_ l r) a1 a2 = a2)
    ∧ free_vars (.binop .ADD (.name "x") (.atom 1)) ∅ ∅ = ∅
    ∧ free_vars (.binop .ADD (.binop .ADD (.name "x") (.name "y")) (.atom 2)) ∅ ∅ = ∅
    ∧ free_vars (.name "x") ∅ ∅ = {"x"} := by
  refine ⟨fun _ _ _ => rfl, fun _ _ _ => rfl, fun _ _ _ _ _ => rfl,
    fun _ _ _ _ => rfl, fun _ _ _ _ => rfl, fun _ _ _ _ => rfl, rfl, rfl, ?_⟩
  simp [free_vars]

theorem pyPairGt_trans {a b c : Nat × Int} (h1 : pyPairGt a b = true)
    (h2 : pyPairGt b c = true) : pyPairGt a c = true := by
  simp only [pyPairGt, Bool.or_eq_true, Bool.and_eq_true, decide_eq_true_eq] at *
  omega

theorem pyPairGt_not_trans {a b c : Nat × Int} (h1 : pyPairGt a b = false)
    (h2 : pyPairGt b c = false) : pyPairGt a c = false := by
  simp only [pyPairGt, Bool.or_eq_false_iff, Bool.and_eq_false_iff,
    decide_eq_false_iff_not, decide_eq_true_eq] at *
  constructor
  · omega
  · rcases h1.2 with h | h <;> rcases h2.2 with h' | h' <;> omega

theorem pyPairGt_irrefl (a : Nat × Int) : pyPairGt a a = false := by
  simp only [pyPairGt, Bool.or_eq_false_iff, Bool.and_eq_false_iff,
    decide_eq_false_iff_not, decide_eq_true_eq]
  omega

theorem max_item_aux_spec (ks : List (Nat × Int)) :
    ∀ (i idx : Nat) (best : Nat × Int),
      pyPairGt best (max_item_aux i idx best ks).2 = false
      ∧ (∀ x ∈ ks, pyPairGt x (max_item_aux i idx best ks).2 = false)
      ∧ ((max_item_aux i idx best ks).1 = idx ∧ (max_item_aux i idx best ks).2 = best
         ∨ ∃ j, ∃ hj : j < ks.length, (max_item_aux i idx best ks).1 = i + j
             ∧ (max_item_aux i idx best ks).2 = ks.get ⟨j, hj⟩) := by
  induction ks with
  | nil =>
      intro i idx best
      exact ⟨pyPairGt_irrefl best, by simp, Or.inl ⟨rfl, rfl⟩⟩
  | cons x xs ih =>
      intro i idx best
      by_cases hgt : pyPairGt x best = true
      · have heq : max_item_aux i idx best (x :: xs) = max_item_aux (i + 1) i x xs := by
          simp [max_item_aux, hgt]
        obtain ⟨h1, h2, h3⟩ := ih (i + 1) i x
        rw [heq]
        refine ⟨?_, ?_, ?_⟩
        · by_contra hb
          rw [Bool.not_eq_false] at hb
          have := pyPairGt_trans hgt hb
          rw [h1] at this; cases this
        · intro y hy
          rcases List.mem_cons.mp hy with rfl | hy
          · exact h1
          · exact h2 y hy
        · rcases h3 with ⟨hidx, hbest⟩ | ⟨j, hj, hidx, hbest⟩
          · exact Or.inr ⟨0, by simp, by omega, by simpa using hbest⟩
          · exact Or.inr ⟨j + 1, by simpa using Nat.succ_lt_succ hj,
              by omega, by simpa using hbest⟩
      · have hle : pyPairGt x best = false := by simpa using hgt
        have heq : max_item_aux i idx best (x :: xs) = max_item_aux (i + 1) idx best xs := by
          simp [max_item_aux, hle]
        obtain ⟨h1, h2, h3⟩ := ih (i + 1) idx best
        rw [heq]
        refine ⟨h1, ?_, ?_⟩
        · intro y hy
          rcases List.mem_cons.mp hy with rfl | hy
          · exact pyPairGt_not_trans hle h1
          · exact h2 y hy
        · rcases h3 with ⟨hidx, hbest⟩ | ⟨j, hj, hidx, hbest⟩
          · exact Or.inl ⟨hidx, hbest⟩
          · exact Or.inr ⟨j + 1, by simpa using Nat.succ_lt_succ hj,
              by omega, by simpa using hbest⟩

theorem max_item_spec (k : Nat × Int) (ks : List (Nat × Int)) :
    ∃ idx best, max_item (k :: ks) = .ok (idx, best)
      ∧ (k :: ks)[idx]? = some best
      ∧ ∀ x ∈ k :: ks, pyPairGt x best = false := by
  obtain ⟨h1, h2, h3⟩ := max_item_aux_spec ks 1 0 k
  refine ⟨(max_item_aux 1 0 k ks).1, (max_item_aux 1 0 k ks).2, rfl, ?_, ?_⟩
  · rcases h3 with ⟨hidx, hbest⟩ | ⟨j, hj, hidx, hbest⟩
    · rw [hidx, hbest]; simp
    · rw [hidx, hbest]
      have hsw : 1 + j = j + 1 := by omega
      rw [hsw, List.getElem?_cons_succ, List.get_eq_getElem]
      exact List.getElem?_eq_getElem hj
  · intro x hx
    rcases List.mem_cons.mp hx with rfl | hx
    · exact h1
    · exact h2 x hx

/-- C2: the reduction loop of `reduce_op_chain` always selects an operator
occurrence of maximal precedence, and among occurrences tied at that
precedence a right-associative operator's occurrence is the rightmost of
the tied right-associative occurrences while a left-associative operator's
occurrence is the leftmost of the tied left-associative occurrences (a
given operator symbol has one associativity, so for ties of one operator
this is the claim's rightmost/leftmost occurrence).  The selection is
`max_item` over the `(precedence, signed-index)` keys, where `idxs` are
the original chain positions of the still-unreduced operators — initially
`0, 1, 2, …` and any strictly increasing list after the loop's pops.
Under the default Python rules `reduce_op_chain([1, "*", 2, "+", 3])`
returns `("+", ("*", 1, 2), 3)`, and a thrice-chained right-associative
`"^"` groups as `a ^ (b ^ c)`. -/
theorem reduce_op_chain_selection_and_examples :
    (∀ (prec : String → Nat) (rA : String → Bool) (ops : List String) (idxs : List Nat),
        idxs.length = ops.length → idxs.Pairwise (· < ·) → ops ≠ [] →
      ∃ (idx : Nat) (best : Nat × Int) (opSel : String),
        max_item (mkKeys prec rA ops idxs) = .ok (idx, best)
        ∧ ops[idx]? = some opSel
        ∧ (∀ (j : Nat) (opJ : String), ops[j]? = some opJ → prec opJ ≤ prec opSel)
        ∧ (rA opSel = true → ∀ (j : Nat) (opJ : String), ops[j]? = some opJ →
            prec opJ = prec opSel → rA opJ = true → j ≤ idx)
        ∧ (rA opSel = false → ∀ (j : Nat) (opJ : String), ops[j]? = some opJ →
            prec opJ = prec opSel → rA opJ = false → idx ≤ j))
    ∧ reduce_op_chain [.int 1, .str "*", .int 2, .str "+", .int 3] none none defaultExpr
        = .ok (.tup "+" (.tup "*" (.int 1) (.int 2)) (.int 3))
    ∧ reduce_op_chain [.str "a", .str "^", .str "b", .str "^", .str "c"]
        (some caretPrecedence) (some caretRightAssoc) defaultExpr
        = .ok (.tup "^" (.str "a") (.tup "^" (.str "b") (.str "c"))) := by
  refine ⟨?_, by decide, by decide⟩
  intro prec rA ops idxs hlen hsorted hne
  have hkeylen : (mkKeys prec rA ops idxs).length = ops.length := by
    simp [mkKeys, hlen]
  obtain ⟨k, ks, hks⟩ : ∃ k ks, mkKeys prec rA ops idxs = k :: ks := by
    cases hmk : mkKeys prec rA ops idxs with
    | nil =>
        rw [hmk] at hkeylen
        exact absurd (List.eq_nil_of_length_eq_zero hkeylen.symm) hne
    | cons k ks => exact ⟨k, ks, rfl⟩
  obtain ⟨idx, best, hmax, hget, hall⟩ := max_item_spec k ks
  rw [hks]
  have hidxlt : idx < ops.length := by
    by_contra hge
    push_neg at hge
    have hnone : (k :: ks)[idx]? = none := by
      apply List.getElem?_eq_none
      rw [← hks, hkeylen]
      exact hge
    rw [hnone] at hget
    cases hget
  have hkeyidx : (List.zipWith (fun o i => (prec o, signedIndex (rA o) i)) ops idxs)[idx]?
      = some best := by
    rw [show List.zipWith (fun o i => (prec o, signedIndex (rA o) i)) ops idxs
        = mkKeys prec rA ops idxs from rfl, hks]
    exact hget
  obtain ⟨opSel, iSel, hopSel, hiSel, hfSel⟩ :=
    List.getElem?_zipWith_eq_some.mp hkeyidx
  have hkeyat : ∀ (j : Nat) (opJ : String), ops[j]? = some opJ →
      ∃ iJ : Nat, idxs[j]? = some iJ
        ∧ (prec opJ, signedIndex (rA opJ) iJ) ∈ k :: ks := by
    intro j opJ hj
    have hjlt : j < ops.length := by
      by_contra hge
      push_neg at hge
      rw [List.getElem?_eq_none hge] at hj
      cases hj
    have hjidx : j < idxs.length := by omega
    refine ⟨idxs[j], List.getElem?_eq_getElem hjidx, ?_⟩
    have : (mkKeys prec rA ops idxs)[j]? = some (prec opJ, signedIndex (rA opJ) idxs[j]) := by
      apply List.getElem?_zipWith_eq_some.mpr
      exact ⟨opJ, idxs[j], hj, List.getElem?_eq_getElem hjidx, rfl⟩
    rw [hks] at this
    exact List.getElem?_mem this
  have hgetIdx : ∀ (j iJ : Nat), idxs[j]? = some iJ → ∃ hjl : j < idxs.length, idxs[j] = iJ := by
    intro j iJ hj
    have hjl : j < idxs.length := by
      by_contra hge
      push_neg at hge
      rw [List.getElem?_eq_none hge] at hj
      cases hj
    refine ⟨hjl, ?_⟩
    have := List.getElem?_eq_getElem hjl
    rw [this] at hj
    exact Option.some_injective _ hj
  have hmono := List.pairwise_iff_getElem.mp hsorted
  refine ⟨idx, best, opSel, hmax, hopSel, ?_, ?_, ?_⟩
  · intro j opJ hj
    obtain ⟨iJ, hiJ, hmem⟩ := hkeyat j opJ hj
    have hgt := hall _ hmem
    rw [← hfSel] at hgt
    simp only [pyPairGt, Bool.or_eq_false_iff, Bool.and_eq_false_iff,
      decide_eq_false_iff_not, decide_eq_true_eq] at hgt
    omega
  · intro hra j opJ hj hpeq hraj
    obtain ⟨iJ, hiJ, hmem⟩ := hkeyat j opJ hj
    have hgt := hall _ hmem
    rw [← hfSel] at hgt
    simp only [pyPairGt, Bool.or_eq_false_iff, Bool.and_eq_false_iff,
      decide_eq_false_iff_not, decide_eq_true_eq] at hgt
    rcases hgt.2 with h | h
    · omega
    · rw [hra, hraj] at h
      simp [signedIndex] at h
      obtain ⟨hjl, rfl⟩ := hgetIdx j iJ hiJ
      obtain ⟨hil, rfl⟩ := hgetIdx idx iSel hiSel
      by_contra hlt
      push_neg at hlt
      have := hmono idx j hil hjl hlt
      omega
  · intro hra j opJ hj hpeq hraj
    obtain ⟨iJ, hiJ, hmem⟩ := hkeyat j opJ hj
    have hgt := hall _ hmem
    rw [← hfSel] at hgt
    simp only [pyPairGt, Bool.or_eq_false_iff, Bool.and_eq_false_iff,
      decide_eq_false_iff_not, decide_eq_true_eq] at hgt
    rcases hgt.2 with h | h
    · omega
    · rw [hra, hraj] at h
      simp [signedIndex] at h
      obtain ⟨hjl, rfl⟩ := hgetIdx j iJ hiJ
      obtain ⟨hil, rfl⟩ := hgetIdx idx iSel hiSel
      by_contra hlt
      push_neg at hlt
      have := hmono j idx hjl hil hlt
      omega

/-- C2 witness: the selection statement instantiated at the default-rule
chain `[1, "*", 2, "+", 3]`, whose operator list is `["*", "+"]` at
positions `[0, 1]`. -/
theorem reduce_op_chain_selection_witness :
    ∃ (idx : Nat) (best : Nat × Int) (opSel : String),
      max_item (mkKeys (fun s => if s = "*" then 9 else 8) (fun _ => false)
        ["*", "+"] [0, 1]) = .ok (idx, best)
      ∧ (["*", "+"] : List String)[idx]? = some opSel := by
  obtain ⟨idx, best, opSel, h1, h2, _⟩ :=
    reduce_op_chain_selection_and_examples.1
      (fun s => if s = "*" then 9 else 8) (fun _ => false)
      ["*", "+"] [0, 1] rfl (by decide) (by decide)
  exact ⟨idx, best, opSel, h1, h2⟩

theorem oidOf_mem_oids (n : Obj) : n.oidOf ∈ n.oids := by
  cases n <;> simp [Obj.oidOf, Obj.oids]

theorem copy_counter_lt (n : Obj) : ∀ ctr, ctr < (n.copy ctr).2 := by
  induction n with
  | atom i p v a => intro ctr; simp [Obj.copy]
  | name i p s a => intro ctr; simp [Obj.copy]
  | token i p v t a => intro ctr; simp [Obj.copy]
  | binop i p op a l r ihl ihr =>
      intro ctr
      have h1 := ihl (ctr + 1)
      have h2 := ihr ((l.copy (ctr + 1)).2)
      simp only [Obj.copy]
      omega

theorem copy_oids_lb (n : Obj) : ∀ ctr, ∀ i ∈ (n.copy ctr).1.oids, ctr ≤ i := by
  induction n with
  | atom i p v a => intro ctr j hj; simp [Obj.copy, Obj.oids] at hj; omega
  | name i p s a => intro ctr j hj; simp [Obj.copy, Obj.oids] at hj; omega
  | token i p v t a => intro ctr j hj; simp [Obj.copy, Obj.oids] at hj; omega
  | binop i p op a l r ihl ihr =>
      intro ctr j hj
      simp only [Obj.copy, Obj.oids, List.mem_cons, List.mem_append] at hj
      rcases hj with rfl | hl | hr
      · omega
      · have := ihl (ctr + 1) j hl
        omega
      · have := ihr ((l.copy (ctr + 1)).2) j hr
        have hc := copy_counter_lt l (ctr + 1)
        omega

theorem copy_structEq (n : Obj) : ∀ ctr, (n.copy ctr).1.structEq n = true := by
  induction n with
  | atom i p v a => intro ctr; simp [Obj.copy, Obj.structEq]
  | name i p s a => intro ctr; simp [Obj.copy, Obj.structEq]
  | token i p v t a => intro ctr; simp [Obj.copy, Obj.structEq]
  | binop i p op a l r ihl ihr =>
      intro ctr
      simp only [Obj.copy, Obj.structEq]
      simp [ihl, ihr]

/-- C6: for every object `n` and live allocation state, `n.copy()` is
structurally equal to `n`, is a distinct object (fresh id), has no parent
even when `n` has one, preserves the tag, the token type tag and the
(shallow-copied) attributes, and every node of the copy — each recursively
copied child included — is freshly allocated, so nothing is shared with any
pre-existing object. -/
theorem copy_is_fresh_parentless_and_equal (n : Obj) (ctr : Nat)
    (hlive : ∀ i ∈ n.oids, i < ctr) :
    (n.copy ctr).1.structEq n = true
    ∧ (n.copy ctr).1.oidOf ≠ n.oidOf
    ∧ (n.copy ctr).1.parentOf = none
    ∧ (n.copy ctr).1.tagOf = n.tagOf
    ∧ (n.copy ctr).1.tokenTypeOf = n.tokenTypeOf
    ∧ (n.copy ctr).1.attrsOf = n.attrsOf
    ∧ (∀ i ∈ (n.copy ctr).1.oids, ctr ≤ i) := by
  have hoid : (n.copy ctr).1.oidOf = ctr := by cases n <;> rfl
  refine ⟨copy_structEq n ctr, ?_, ?_, ?_, ?_, ?_, copy_oids_lb n ctr⟩
  · rw [hoid]
    have := hlive n.oidOf (oidOf_mem_oids n)
    omega
  · cases n <;> rfl
  · cases n <;> rfl
  · cases n <;> rfl
  · cases n <;> rfl

/-- C6 witness: a two-child node with a parent and ids `0, 1, 2`, copied at
allocation counter `3`. -/
theorem copy_is_fresh_witness :
    ((Obj.binop 0 (some 5) .ADD [("k", 1)]
        (.atom 1 (some 0) 7 []) (.name 2 (some 0) "w" [])).copy 3).1.parentOf = none
    ∧ ((Obj.binop 0 (some 5) .ADD [("k", 1)]
        (.atom 1 (some 0) 7 []) (.name 2 (some 0) "w" [])).copy 3).1.structEq
        (Obj.binop 0 (some 5) .ADD [("k", 1)]
          (.atom 1 (some 0) 7 []) (.name 2 (some 0) "w" [])) = true := by
  have h := copy_is_fresh_parentless_and_equal
    (Obj.binop 0 (some 5) .ADD [("k", 1)]
      (.atom 1 (some 0) 7 []) (.name 2 (some 0) "w" [])) 3 (by decide)
  exact ⟨h.2.2.1, h.1⟩

theorem max_item_error_eq (l : List (Nat × Int)) (s : String)
    (h : max_item l = .error s) :
    s = "cannot find maximum value of empty sequence" := by
  cases l with
  | nil =>
      simp only [max_item] at h
      exact (Except.error.inj h).symm
  | cons x xs => simp [max_item] at h

theorem lookupPrecedence_error_cases (p : Option (String → Option Nat)) (pv : PyVal)
    (e : String) (h : lookupPrecedence p pv = .error e) :
    e = "TypeError: NoneType is not subscriptable" ∨ e = "KeyError" := by
  cases pv with
  | int n => exact Or.inr (Except.error.inj h).symm
  | tup o a b => exact Or.inr (Except.error.inj h).symm
  | str s =>
      cases p with
      | none => exact Or.inl (Except.error.inj h).symm
      | some table =>
          cases htab : table s with
          | none =>
              simp only [lookupPrecedence, htab] at h
              exact Or.inr (Except.error.inj h).symm
          | some q => simp [lookupPrecedence, htab] at h

theorem buildPrecedencesAux_error_ne (p : Option (String → Option Nat))
    (ra : String → Bool) :
    ∀ (ops : List PyVal) (i : Nat) (e : String),
      buildPrecedencesAux p ra i ops = .error e → e ≠ chainShapeError := by
  intro ops
  induction ops with
  | nil => intro i e h; simp [buildPrecedencesAux] at h
  | cons op rest ih =>
      intro i e h
      simp only [buildPrecedencesAux] at h
      cases hl : lookupPrecedence p op with
      | error e3 =>
          rw [hl] at h
          have he : e3 = e := Except.error.inj h
          rcases lookupPrecedence_error_cases p op e3 hl with h3 | h3 <;>
            (subst he; rw [h3]; intro hc; simp [chainShapeError] at hc)
      | ok q =>
          rw [hl] at h
          cases hr : buildPrecedencesAux p ra (i + 1) rest with
          | error e3 =>
              rw [hr] at h
              have he : e3 = e := Except.error.inj h
              exact he ▸ ih (i + 1) e3 hr
          | ok ks =>
              rw [hr] at h
              simp at h

theorem buildPrecedences_error_ne (p : Option (String → Option Nat))
    (ra : String → Bool) (ops : List PyVal) (e : String)
    (h : buildPrecedences p ra ops = .error e) : e ≠ chainShapeError :=
  buildPrecedencesAux_error_ne p ra ops 0 e h

theorem reduceLoop_error_facts (expr : PyVal → PyVal → PyVal → PyVal) :
    ∀ (fuel : Nat) (values ops : List PyVal) (precs : List (Nat × Int)) (e : String),
      reduceLoop expr fuel values ops precs = .error e → e ≠ chainShapeError := by
  intro fuel
  induction fuel with
  | zero =>
      intro values ops precs e h
      cases ops with
      | cons o os =>
          simp only [reduceLoop] at h
          have : "IndexError" = e := Except.error.inj h
          subst this
          intro hc; simp [chainShapeError] at hc
      | nil =>
          cases values with
          | nil =>
              simp only [reduceLoop] at h
              have : "IndexError" = e := Except.error.inj h
              subst this
              intro hc; simp [chainShapeError] at hc
          | cons v vs => simp [reduceLoop] at h
  | succ fuel ih =>
      intro values ops precs e h
      cases ops with
      | nil =>
          cases values with
          | nil =>
              simp only [reduceLoop] at h
              have : "IndexError" = e := Except.error.inj h
              subst this
              intro hc; simp [chainShapeError] at hc
          | cons v vs => simp [reduceLoop] at h
      | cons o os =>
          simp only [reduceLoop] at h
          cases hm : max_item precs with
          | error s =>
              rw [hm] at h
              have hse : s = e := Except.error.inj h
              have := max_item_error_eq precs s hm
              subst hse; rw [this]
              intro hc; simp [chainShapeError] at hc
          | ok pair =>
              obtain ⟨idx, best⟩ := pair
              rw [hm] at h
              dsimp only at h
              by_cases hidx : idx < (o :: os).length
              · rw [if_pos hidx] at h
                cases hv1 : values[idx]? with
                | none =>
                    rw [hv1] at h
                    have : "IndexError" = e := Except.error.inj h
                    subst this; intro hc; simp [chainShapeError] at hc
                | some lhs =>
                    rw [hv1] at h
                    cases hv2 : values[idx + 1]? with
                    | none =>
                        rw [hv2] at h
                        have : "IndexError" = e := Except.error.inj h
                        subst this; intro hc; simp [chainShapeError] at hc
                    | some rhs =>
                        rw [hv2] at h
                        cases hv3 : (o :: os)[idx]? with
                        | none =>
                            rw [hv3] at h
                            have : "IndexError" = e := Except.error.inj h
                            subst this; intro hc; simp [chainShapeError] at hc
                        | some op =>
                            rw [hv3] at h
                            exact ih _ _ _ e h
              · rw [if_neg hidx] at h
                have : "IndexError" = e := Except.error.inj h
                subst this; intro hc; simp [chainShapeError] at hc

/-- C7 (amended): `reduce_op_chain` raises the input-shape error exactly
when the chain's length is even or the chain is a singleton — a singleton
chain `[v]` is rejected by the explicit `n == 1` test, not accepted as the
claim states; chains of odd length at least 3 never produce the shape
error (any failure there is a different error, such as a `KeyError` for an
unknown operator). -/
theorem reduce_op_chain_shape_error_iff (chain : List PyVal)
    (precedence : Option (String → Option Nat))
    (right_assoc : Option (String → Bool))
    (expr : PyVal → PyVal → PyVal → PyVal) :
    reduce_op_chain chain precedence right_assoc expr = .error chainShapeError ↔
      (chain.length % 2 = 0 ∨ chain.length = 1) := by
  by_cases h : chain.length % 2 = 0 ∨ chain.length = 1
  · simp [reduce_op_chain, h]
  · refine iff_of_false ?_ h
    intro habs
    simp only [reduce_op_chain, if_neg h] at habs
    split at habs
    next e heq =>
      exact buildPrecedences_error_ne _ _ _ e heq (Except.error.inj habs)
    next precs heq =>
      exact reduceLoop_error_facts expr _ _ _ _ _ habs rfl

/-- C7 counterexample: the singleton chain `[1]` is not accepted and does
not return its value — it raises the input-shape error. -/
theorem reduce_op_chain_rejects_singleton :
    reduce_op_chain [.int 1] none none defaultExpr = .error chainShapeError
    ∧ reduce_op_chain [.int 1] none none defaultExpr ≠ .ok (.int 1) := by
  decide

theorem takeWhile_append_of_all (p : Char → Bool) (a b : List Char)
    (ha : ∀ c ∈ a, p c = true) (hb : b.takeWhile p = []) :
    (a ++ b).takeWhile p = a := by
  induction a with
  | nil => simpa using hb
  | cons x xs ih =>
      simp only [List.cons_append, List.takeWhile_cons, ha x (by simp), if_true]
      rw [ih (fun c hc => ha c (by simp [hc]))]

theorem dropWhile_append_of_all (p : Char → Bool) (a b : List Char)
    (ha : ∀ c ∈ a, p c = true) (hb : b.takeWhile p = []) :
    (a ++ b).dropWhile p = b := by
  induction a with
  | nil =>
      simp only [List.nil_append]
      cases b with
      | nil => rfl
      | cons y ys =>
          rw [List.takeWhile_cons] at hb
          by_cases hy : p y
          · simp [hy] at hb
          · simp [List.dropWhile_cons, hy]
  | cons x xs ih =>
      simp only [List.cons_append, List.dropWhile_cons, ha x (by simp), if_true]
      exact ih (fun c hc => ha c (by simp [hc]))

theorem noMunch_takeWhile_digit (rest : List Char) (h : noMunch rest) :
    rest.takeWhile Char.isDigit = [] := by
  cases rest with
  | nil => rfl
  | cons c cs =>
      simp only [noMunch] at h
      push_neg at h
      simp [List.takeWhile_cons, h.1]

theorem noMunch_takeWhile_alpha (rest : List Char) (h : noMunch rest) :
    rest.takeWhile isLowerAlpha = [] := by
  cases rest with
  | nil => rfl
  | cons c cs =>
      simp only [noMunch] at h
      push_neg at h
      simp [List.takeWhile_cons, h.2]

theorem lower_not_digit (c : Char) (h : isLowerAlpha c = true) : c.isDigit = false := by
  simp only [isLowerAlpha, Bool.and_eq_true, decide_eq_true_eq] at h
  simp only [Char.isDigit]
  have h97 : ('a' : Char).val.toNat ≤ c.val.toNat := Char.le_def.mp h.1
  simp only [Bool.and_eq_false_iff, decide_eq_false_iff_not]
  right
  intro hle
  have h57 : c.val.toNat ≤ (57 : UInt32).toNat := hle
  have ha : ('a' : Char).val.toNat = 97 := by decide
  have h57v : (57 : UInt32).toNat = 57 := by decide
  omega

/-- The inductive statement of lexer correctness on printed fragment
sources: with any continuation whose first character cannot extend a name
or number, lexing the printed source prepends exactly the expression's
token stream. -/
def LexSourceOk (e : Expr) : Prop :=
  ∀ (rest : List Char) (restToks : List Tok),
    noMunch rest →
    (∀ f, rest.length ≤ f → lexChars f rest = some restToks) →
    ∀ fuel, (Expr.source e).data.length + rest.length ≤ fuel →
      lexChars fuel ((Expr.source e).data ++ rest) = some (flatToks e ++ restToks)

theorem lex_atom_ok (v : Int) (d : Char)
    (hdata : (Expr.source (.atom v)).data = [d])
    (hdig : d.isDigit = true)
    (hnum : digitsToNat [d] = v.toNat) :
    LexSourceOk (.atom v) := by
  intro rest restToks hnm hrest fuel hfuel
  rw [hdata] at hfuel ⊢
  simp only [List.length_cons, List.length_nil] at hfuel
  cases fuel with
  | zero => omega
  | succ f =>
      have h1 : (d = ' ') = False := by
        by_cases h : d = ' '
        · subst h
          exact absurd hdig (by decide)
        · simp [h]
      have h2 : (d = '+') = False := by
        by_cases h : d = '+'
        · subst h
          exact absurd hdig (by decide)
        · simp [h]
      have h3 : (d = '*') = False := by
        by_cases h : d = '*'
        · subst h
          exact absurd hdig (by decide)
        · simp [h]
      have h4 : (d = '(') = False := by
        by_cases h : d = '('
        · subst h
          exact absurd hdig (by decide)
        · simp [h]
      have h5 : (d = ')') = False := by
        by_cases h : d = ')'
        · subst h
          exact absurd hdig (by decide)
        · simp [h]
      simp only [lexChars, h1, h2, h3, h4, h5, if_false, hdig, if_true]
      simp only [List.append_eq, List.nil_append]
      have htw : (d :: rest).takeWhile Char.isDigit = [d] := by
        simp [List.takeWhile_cons, hdig, noMunch_takeWhile_digit rest hnm]
      have hdw : (d :: rest).dropWhile Char.isDigit = rest := by
        have := dropWhile_append_of_all Char.isDigit [d] rest
          (by intro c hc; simp at hc; subst hc; exact hdig)
          (noMunch_takeWhile_digit rest hnm)
        simpa using this
      rw [htw, hdw, hrest f (by omega), hnum]
      rfl

theorem lex_name_ok (s : String)
    (hne : s.data.isEmpty = false)
    (hall : s.data.all isLowerAlpha = true) :
    LexSourceOk (.name s) := by
  intro rest restToks hnm hrest fuel hfuel
  have hsrc : Expr.source (.name s) = s := rfl
  rw [hsrc] at hfuel ⊢
  obtain ⟨d, ds, hds⟩ : ∃ d ds, s.data = d :: ds := by
    cases h : s.data with
    | nil => rw [h] at hne; simp at hne
    | cons d ds => exact ⟨d, ds, rfl⟩
  have halls : ∀ c ∈ s.data, isLowerAlpha c = true := by
    intro c hc
    exact List.all_eq_true.mp hall c hc
  have hd : isLowerAlpha d = true := halls d (by rw [hds]; simp)
  rw [hds] at hfuel
  simp only [List.length_cons] at hfuel
  cases fuel with
  | zero => omega
  | succ f =>
      have h1 : (d = ' ') = False := by
        by_cases h : d = ' '
        · subst h; exact absurd hd (by decide)
        · simp [h]
      have h2 : (d = '+') = False := by
        by_cases h : d = '+'
        · subst h; exact absurd hd (by decide)
        · simp [h]
      have h3 : (d = '*') = False := by
        by_cases h : d = '*'
        · subst h; exact absurd hd (by decide)
        · simp [h]
      have h4 : (d = '(') = False := by
        by_cases h : d = '('
        · subst h; exact absurd hd (by decide)
        · simp [h]
      have h5 : (d = ')') = False := by
        by_cases h : d = ')'
        · subst h; exact absurd hd (by decide)
        · simp [h]
      have h6 : d.isDigit = false := lower_not_digit d hd
      conv in s.data ++ rest => rw [hds]
      simp only [List.cons_append, lexChars, h1, h2, h3, h4, h5, if_false, h6,
        Bool.false_eq_true, hd, if_true]
      have htw : List.takeWhile isLowerAlpha (d :: (ds ++ rest)) = d :: ds := by
        have h := takeWhile_append_of_all isLowerAlpha (d :: ds) rest
          (fun c hc => halls c (by rw [hds]; exact hc))
          (noMunch_takeWhile_alpha rest hnm)
        simpa using h
      have hdw : List.dropWhile isLowerAlpha (d :: (ds ++ rest)) = rest := by
        have h := dropWhile_append_of_all isLowerAlpha (d :: ds) rest
          (fun c hc => halls c (by rw [hds]; exact hc))
          (noMunch_takeWhile_alpha rest hnm)
        simpa using h
      simp only [List.append_eq]
      rw [htw, hdw, hrest f (by omega)]
      have hmk : String.mk (d :: ds) = s := by
        rw [← hds]
      rw [hmk]
      rfl

theorem lex_wrap_ok (x : Expr) (hx : LexSourceOk x) (w : Bool) :
    ∀ (rest : List Char) (restToks : List Tok),
      noMunch rest →
      (∀ f, rest.length ≤ f → lexChars f rest = some restToks) →
      ∀ fuel, (wrapSource w (Expr.source x)).data.length + rest.length ≤ fuel →
        lexChars fuel ((wrapSource w (Expr.source x)).data ++ rest)
          = some (wrapToks w (flatToks x) ++ restToks) := by
  cases w with
  | false =>
      intro rest restToks hnm hrest fuel hfuel
      simp only [wrapSource, Bool.false_eq_true, if_false] at hfuel ⊢
      simp only [wrapToks, Bool.false_eq_true, if_false]
      exact hx rest restToks hnm hrest fuel hfuel
  | true =>
      intro rest restToks hnm hrest fuel hfuel
      have hdata : (wrapSource true (Expr.source x)).data
          = '(' :: ((Expr.source x).data ++ [')']) := by
        simp [wrapSource, String.data_append]
      rw [hdata] at hfuel ⊢
      simp only [List.length_cons, List.length_append, List.length_cons,
        List.length_nil] at hfuel
      cases fuel with
      | zero => omega
      | succ f =>
          have hstep : lexChars (f + 1) ('(' :: ((Expr.source x).data ++ [')']) ++ rest)
              = (lexChars f (((Expr.source x).data ++ [')']) ++ rest)).map (Tok.lpar :: ·) := rfl
          rw [hstep]
          have hrest2 : ∀ g, (')' :: rest).length ≤ g →
              lexChars g (')' :: rest) = some (Tok.rpar :: restToks) := by
            intro g hg
            simp only [List.length_cons] at hg
            cases g with
            | zero => omega
            | succ g2 =>
                have : lexChars (g2 + 1) (')' :: rest)
                    = (lexChars g2 rest).map (Tok.rpar :: ·) := rfl
                rw [this, hrest g2 (by omega)]
                rfl
          have happ : ((Expr.source x).data ++ [')']) ++ rest
              = (Expr.source x).data ++ (')' :: rest) := by
            simp
          rw [happ, hx (')' :: rest) (Tok.rpar :: restToks)
            (by simp only [noMunch]; decide)
            hrest2 f (by simp only [List.length_cons]; omega)]
          simp [wrapToks]

theorem lex_binop_ok (op : BinaryOp) (l r : Expr) (opc : Char)
    (hvd : op.value.data = [opc])
    (hstep : ∀ (f : Nat) (X : List Char),
      lexChars (f + 1) (opc :: X) = (lexChars f X).map (opTok op :: ·))
    (hl : LexSourceOk l) (hr : LexSourceOk r) :
    LexSourceOk (.binop op l r) := by
  intro rest restToks hnm hrest fuel hfuel
  have hdata : (Expr.source (.binop op l r)).data
      = (wrapSource (wrap_child_tokens op l "lhs") (Expr.source l)).data
        ++ (' ' :: opc :: ' '
          :: ((wrapSource (wrap_child_tokens op r "rhs") (Expr.source r)).data ++ [])) := by
    show (wrapSource (wrap_child_tokens op l "lhs") (Expr.source l)
        ++ " " ++ op.value ++ " "
        ++ wrapSource (wrap_child_tokens op r "rhs") (Expr.source r)).data = _
    simp [String.data_append, hvd]
  have hdata2 : (Expr.source (.binop op l r)).data ++ rest
      = (wrapSource (wrap_child_tokens op l "lhs") (Expr.source l)).data
        ++ (' ' :: opc :: ' '
          :: ((wrapSource (wrap_child_tokens op r "rhs") (Expr.source r)).data ++ rest)) := by
    rw [hdata]
    simp
  rw [hdata2]
  have hB := lex_wrap_ok r hr (wrap_child_tokens op r "rhs") rest restToks hnm hrest
  have hmid : ∀ f,
      (' ' :: opc :: ' '
        :: ((wrapSource (wrap_child_tokens op r "rhs") (Expr.source r)).data ++ rest)).length ≤ f →
      lexChars f (' ' :: opc :: ' '
          :: ((wrapSource (wrap_child_tokens op r "rhs") (Expr.source r)).data ++ rest))
        = some (opTok op :: (wrapToks (wrap_child_tokens op r "rhs") (flatToks r) ++ restToks)) := by
    intro f hf
    simp only [List.length_cons, List.length_append] at hf
    cases f with
    | zero => omega
    | succ f1 =>
        have hsp : lexChars (f1 + 1) (' ' :: (opc :: ' '
            :: ((wrapSource (wrap_child_tokens op r "rhs") (Expr.source r)).data ++ rest)))
            = lexChars f1 (opc :: ' '
              :: ((wrapSource (wrap_child_tokens op r "rhs") (Expr.source r)).data ++ rest)) := rfl
        rw [hsp]
        cases f1 with
        | zero => omega
        | succ f2 =>
            rw [hstep f2]
            cases f2 with
            | zero => omega
            | succ f3 =>
                have hsp2 : lexChars (f3 + 1) (' '
                    :: ((wrapSource (wrap_child_tokens op r "rhs") (Expr.source r)).data ++ rest))
                    = lexChars f3
                      ((wrapSource (wrap_child_tokens op r "rhs") (Expr.source r)).data ++ rest) := rfl
                rw [hsp2, hB f3 (by omega)]
                rfl
  have hlen : (Expr.source (.binop op l r)).data.length
      = (wrapSource (wrap_child_tokens op l "lhs") (Expr.source l)).data.length
        + (3 + (wrapSource (wrap_child_tokens op r "rhs") (Expr.source r)).data.length) := by
    rw [hdata]
    simp
    omega
  have := lex_wrap_ok l hl (wrap_child_tokens op l "lhs")
    (' ' :: opc :: ' '
      :: ((wrapSource (wrap_child_tokens op r "rhs") (Expr.source r)).data ++ rest))
    (opTok op :: (wrapToks (wrap_child_tokens op r "rhs") (flatToks r) ++ restToks))
    (by simp only [noMunch]; decide) hmid fuel
    (by
      rw [hlen] at hfuel
      simp only [List.length_cons, List.length_append]
      omega)
  rw [this]
  have : flatToks (.binop op l r)
      = wrapToks (wrap_child_tokens op l "lhs") (flatToks l)
        ++ opTok op :: wrapToks (wrap_child_tokens op r "rhs") (flatToks r) := rfl
  rw [this]
  simp

theorem lex_source_ok (e : Expr) (he : inFragment e = true) : LexSourceOk e := by
  induction e with
  | atom v =>
      simp only [inFragment, Bool.and_eq_true, decide_eq_true_eq] at he
      obtain ⟨h0, h9⟩ := he
      interval_cases v <;>
        first | exact lex_atom_ok _ '0' (by decide) (by decide) (by decide) | exact lex_atom_ok _ '1' (by decide) (by decide) (by decide) | exact lex_atom_ok _ '2' (by decide) (by decide) (by decide) | exact lex_atom_ok _ '3' (by decide) (by decide) (by decide) | exact lex_atom_ok _ '4' (by decide) (by decide) (by decide) | exact lex_atom_ok _ '5' (by decide) (by decide) (by decide) | exact lex_atom_ok _ '6' (by decide) (by decide) (by decide) | exact lex_atom_ok _ '7' (by decide) (by decide) (by decide) | exact lex_atom_ok _ '8' (by decide) (by decide) (by decide) | exact lex_atom_ok _ '9' (by decide) (by decide) (by decide)
  | name s =>
      simp only [inFragment, Bool.and_eq_true, Bool.not_eq_true'] at he
      exact lex_name_ok s he.1 he.2
  | binop op l r ihl ihr =>
      cases op <;> simp only [inFragment, Bool.and_eq_true] at he
      case ADD =>
        exact lex_binop_ok .ADD l r '+' (by decide) (fun f X => rfl)
          (ihl he.1) (ihr he.2)
      case MUL =>
        exact lex_binop_ok .MUL l r '*' (by decide) (fun f X => rfl)
          (ihl he.1) (ihr he.2)
      all_goals exact absurd he (by simp)
  | unary_op op x ih => simp [inFragment] at he
  | and_ l r ihl ihr => simp [inFragment] at he
  | or_ l r ihl ihr => simp [inFragment] at he

theorem esize_pos (e : Expr) : 1 ≤ Expr.esize e := by
  cases e <;> simp [Expr.esize] <;> omega

theorem pcost_pos (e : Expr) : 1 ≤ pcost e := by
  cases e <;> simp [pcost] <;> omega

theorem pcostA_pos (e : Expr) : 1 ≤ pcostA e := by
  cases e with
  | binop op l r => show 1 ≤ pcost (Expr.binop op l r) + 5; omega
  | atom v => exact le_refl 1
  | name s => exact le_refl 1
  | unary_op op x => exact le_refl 1
  | and_ l r => exact le_refl 1
  | or_ l r => exact le_refl 1

theorem pcostA_le (e : Expr) : pcostA e ≤ pcost e + 5 := by
  cases e with
  | binop op l r => exact le_refl _
  | atom v => show (1 : Nat) ≤ 1 + 5; omega
  | name s => show (1 : Nat) ≤ 1 + 5; omega
  | unary_op op x => show (1 : Nat) ≤ pcost x + 8 + 5; omega
  | and_ l r => show (1 : Nat) ≤ pcost l + pcost r + 8 + 5; omega
  | or_ l r => show (1 : Nat) ≤ pcost l + pcost r + 8 + 5; omega

theorem isAddNode_shape (e : Expr) (h : isAddNode e = true) :
    ∃ l r, e = Expr.binop .ADD l r := by
  cases e with
  | binop op l r =>
      cases op <;> first | exact ⟨l, r, rfl⟩ | exact Bool.noConfusion h
  | atom v => exact Bool.noConfusion h
  | name s => exact Bool.noConfusion h
  | unary_op op x => exact Bool.noConfusion h
  | and_ l r => exact Bool.noConfusion h
  | or_ l r => exact Bool.noConfusion h

theorem isMulNode_shape (e : Expr) (h : isMulNode e = true) :
    ∃ l r, e = Expr.binop .MUL l r := by
  cases e with
  | binop op l r =>
      cases op <;> first | exact ⟨l, r, rfl⟩ | exact Bool.noConfusion h
  | atom v => exact Bool.noConfusion h
  | name s => exact Bool.noConfusion h
  | unary_op op x => exact Bool.noConfusion h
  | and_ l r => exact Bool.noConfusion h
  | or_ l r => exact Bool.noConfusion h

theorem inFragment_binop (op : BinaryOp) (l r : Expr)
    (h : inFragment (Expr.binop op l r) = true) :
    (op = BinaryOp.ADD ∨ op = BinaryOp.MUL) ∧
      inFragment l = true ∧ inFragment r = true := by
  cases op
  case ADD =>
      simp only [inFragment, Bool.and_eq_true] at h
      exact ⟨Or.inl rfl, h⟩
  case MUL =>
      simp only [inFragment, Bool.and_eq_true] at h
      exact ⟨Or.inr rfl, h⟩
  all_goals exact Bool.noConfusion h

theorem wct_add_of_fragment (c : Expr) (h : inFragment c = true) (role : String) :
    wrap_child_tokens .ADD c role = false := by
  cases c with
  | atom v => rfl
  | name s => rfl
  | binop op l r =>
      rcases (inFragment_binop op l r h).1 with rfl | rfl <;> rfl
  | unary_op op x => exact Bool.noConfusion h
  | and_ l r => exact Bool.noConfusion h
  | or_ l r => exact Bool.noConfusion h

theorem wct_mul_of_fragment (c : Expr) (h : inFragment c = true) (role : String) :
    wrap_child_tokens .MUL c role = isAddNode c := by
  cases c with
  | atom v => rfl
  | name s => rfl
  | binop op l r =>
      rcases (inFragment_binop op l r h).1 with rfl | rfl <;> rfl
  | unary_op op x => exact Bool.noConfusion h
  | and_ l r => exact Bool.noConfusion h
  | or_ l r => exact Bool.noConfusion h

theorem isAddNode_chainHead (e : Expr) : isAddNode (chainHead e) = false := by
  induction e with
  | binop op l r ihl ihr =>
      cases op
      case ADD => exact ihl
      all_goals rfl
  | atom v => rfl
  | name s => rfl
  | unary_op op x ih => rfl
  | and_ l r ihl ihr => rfl
  | or_ l r ihl ihr => rfl

theorem isMulNode_mulHead (e : Expr) : isMulNode (mulHead e) = false := by
  induction e with
  | binop op l r ihl ihr =>
      cases op
      case MUL => exact ihl
      all_goals rfl
  | atom v => rfl
  | name s => rfl
  | unary_op op x ih => rfl
  | and_ l r ihl ihr => rfl
  | or_ l r ihl ihr => rfl

theorem mulHead_of_not_mul (e : Expr) (h : isMulNode e = false) : mulHead e = e := by
  cases e with
  | binop op l r =>
      cases op
      case MUL => exact Bool.noConfusion h
      all_goals rfl
  | atom v => rfl
  | name s => rfl
  | unary_op op x => rfl
  | and_ l r => rfl
  | or_ l r => rfl

theorem mulTail_of_not_mul (e : Expr) (h : isMulNode e = false) : mulTail e = [] := by
  cases e with
  | binop op l r =>
      cases op
      case MUL => exact Bool.noConfusion h
      all_goals rfl
  | atom v => rfl
  | name s => rfl
  | unary_op op x => rfl
  | and_ l r => rfl
  | or_ l r => rfl

theorem chainHead_pcost_le (e : Expr) : pcost (chainHead e) ≤ pcost e := by
  induction e with
  | binop op l r ihl ihr =>
      cases op
      case ADD =>
          show pcost (chainHead l) ≤ pcost l + pcost r + 8
          have := ihl
          omega
      all_goals exact le_refl _
  | atom v => exact le_refl _
  | name s => exact le_refl _
  | unary_op op x ih => exact le_refl _
  | and_ l r ihl ihr => exact le_refl _
  | or_ l r ihl ihr => exact le_refl _

theorem mulHead_pcost_le (e : Expr) : pcost (mulHead e) ≤ pcost e := by
  induction e with
  | binop op l r ihl ihr =>
      cases op
      case MUL =>
          show pcost (mulHead l) ≤ pcost l + pcost r + 8
          have := ihl
          omega
      all_goals exact le_refl _
  | atom v => exact le_refl _
  | name s => exact le_refl _
  | unary_op op x ih => exact le_refl _
  | and_ l r ihl ihr => exact le_refl _
  | or_ l r ihl ihr => exact le_refl _

theorem chainHead_esize_le (e : Expr) : Expr.esize (chainHead e) ≤ Expr.esize e := by
  induction e with
  | binop op l r ihl ihr =>
      cases op
      case ADD =>
          show Expr.esize (chainHead l) ≤ Expr.esize l + Expr.esize r + 1
          have := ihl
          omega
      all_goals exact le_refl _
  | atom v => exact le_refl _
  | name s => exact le_refl _
  | unary_op op x ih => exact le_refl _
  | and_ l r ihl ihr => exact le_refl _
  | or_ l r ihl ihr => exact le_refl _

theorem mulHead_esize_le (e : Expr) : Expr.esize (mulHead e) ≤ Expr.esize e := by
  induction e with
  | binop op l r ihl ihr =>
      cases op
      case MUL =>
          show Expr.esize (mulHead l) ≤ Expr.esize l + Expr.esize r + 1
          have := ihl
          omega
      all_goals exact le_refl _
  | atom v => exact le_refl _
  | name s => exact le_refl _
  | unary_op op x ih => exact le_refl _
  | and_ l r ihl ihr => exact le_refl _
  | or_ l r ihl ihr => exact le_refl _

theorem chainHead_esize_lt_of_add (e : Expr) (h : isAddNode e = true) :
    Expr.esize (chainHead e) < Expr.esize e := by
  obtain ⟨l, r, rfl⟩ := isAddNode_shape e h
  have h1 := chainHead_esize_le l
  have h2 := esize_pos r
  show Expr.esize (chainHead l) < Expr.esize l + Expr.esize r + 1
  omega

theorem mulHead_esize_lt_of_mul (e : Expr) (h : isMulNode e = true) :
    Expr.esize (mulHead e) < Expr.esize e := by
  obtain ⟨l, r, rfl⟩ := isMulNode_shape e h
  have h1 := mulHead_esize_le l
  have h2 := esize_pos r
  show Expr.esize (mulHead l) < Expr.esize l + Expr.esize r + 1
  omega

theorem pcostA_mulHead_le (e : Expr) (hf : inFragment e = true)
    (hna : isAddNode e = false) : pcostA (mulHead e) ≤ pcost e + 1 := by
  cases e with
  | atom v => show (1 : Nat) ≤ 1 + 1; omega
  | name s => show (1 : Nat) ≤ 1 + 1; omega
  | binop op l r =>
      rcases (inFragment_binop op l r hf).1 with rfl | rfl
      · exact Bool.noConfusion hna
      · have h1 := mulHead_pcost_le l
        have h2 := pcostA_le (mulHead l)
        show pcostA (mulHead l) ≤ pcost l + pcost r + 8 + 1
        omega
  | unary_op op x => exact Bool.noConfusion hf
  | and_ l r => exact Bool.noConfusion hf
  | or_ l r => exact Bool.noConfusion hf

theorem starCost_append (xs ys : List Expr) :
    starCost (xs ++ ys) = starCost xs + starCost ys := by
  induction xs with
  | nil => simp [starCost]
  | cons t l ih => simp [starCost, ih]; omega

theorem plusCost_append (xs ys : List Expr) :
    plusCost (xs ++ ys) = plusCost xs + plusCost ys := by
  induction xs with
  | nil => simp [plusCost]
  | cons t l ih => simp [plusCost, ih]; omega

theorem plusToks_append (xs ys : List Expr) :
    plusToks (xs ++ ys) = plusToks xs ++ plusToks ys := by
  induction xs with
  | nil => rfl
  | cons t l ih => simp [plusToks, ih]

theorem starToks_append (xs ys : List Expr) :
    starToks (xs ++ ys) = starToks xs ++ starToks ys := by
  induction xs with
  | nil => rfl
  | cons t l ih => simp [starToks, ih]

theorem starCost_mulTail_le (e : Expr) : starCost (mulTail e) ≤ pcost e := by
  induction e with
  | binop op l r ihl ihr =>
      cases op
      case MUL =>
          show starCost (mulTail l ++ [r]) ≤ pcost l + pcost r + 8
          rw [starCost_append]
          have h1 := ihl
          have h2 := pcostA_le r
          simp only [starCost]
          omega
      all_goals exact Nat.zero_le _
  | atom v => exact Nat.zero_le _
  | name s => exact Nat.zero_le _
  | unary_op op x ih => exact Nat.zero_le _
  | and_ l r ihl ihr => exact Nat.zero_le _
  | or_ l r ihl ihr => exact Nat.zero_le _

theorem plusCost_chainTail_le (e : Expr) : plusCost (chainTail e) ≤ pcost e := by
  induction e with
  | binop op l r ihl ihr =>
      cases op
      case ADD =>
          show plusCost (chainTail l ++ [r]) ≤ pcost l + pcost r + 8
          rw [plusCost_append]
          have h1 := ihl
          simp only [plusCost]
          omega
      all_goals exact Nat.zero_le _
  | atom v => exact Nat.zero_le _
  | name s => exact Nat.zero_le _
  | unary_op op x ih => exact Nat.zero_le _
  | and_ l r ihl ihr => exact Nat.zero_le _
  | or_ l r ihl ihr => exact Nat.zero_le _

theorem rebuildAdd_append (acc : Expr) (xs : List Expr) (r : Expr) :
    rebuildAdd acc (xs ++ [r]) = Expr.binop .ADD (rebuildAdd acc xs) r := by
  induction xs generalizing acc with
  | nil => rfl
  | cons t l ih => exact ih (Expr.binop .ADD acc t)

theorem rebuildMul_append (acc : Expr) (xs : List Expr) (r : Expr) :
    rebuildMul acc (xs ++ [r]) = Expr.binop .MUL (rebuildMul acc xs) r := by
  induction xs generalizing acc with
  | nil => rfl
  | cons t l ih => exact ih (Expr.binop .MUL acc t)

theorem rebuildAdd_chain (e : Expr) : rebuildAdd (chainHead e) (chainTail e) = e := by
  induction e with
  | binop op l r ihl ihr =>
      cases op
      case ADD =>
          show rebuildAdd (chainHead l) (chainTail l ++ [r]) = Expr.binop .ADD l r
          rw [rebuildAdd_append, ihl]
      all_goals rfl
  | atom v => rfl
  | name s => rfl
  | unary_op op x ih => rfl
  | and_ l r ihl ihr => rfl
  | or_ l r ihl ihr => rfl

theorem rebuildMul_chain (e : Expr) : rebuildMul (mulHead e) (mulTail e) = e := by
  induction e with
  | binop op l r ihl ihr =>
      cases op
      case MUL =>
          show rebuildMul (mulHead l) (mulTail l ++ [r]) = Expr.binop .MUL l r
          rw [rebuildMul_append, ihl]
      all_goals rfl
  | atom v => rfl
  | name s => rfl
  | unary_op op x ih => rfl
  | and_ l r ihl ihr => rfl
  | or_ l r ihl ihr => rfl

theorem chainHead_fragment (e : Expr) (hf : inFragment e = true)
    (hc : canonical e = true) :
    inFragment (chainHead e) = true ∧ canonical (chainHead e) = true := by
  induction e with
  | binop op l r ihl ihr =>
      rcases inFragment_binop op l r hf with ⟨hop, hfl, hfr⟩
      rcases hop with rfl | rfl
      · simp only [canonical, Bool.and_eq_true] at hc
        show inFragment (chainHead l) = true ∧ canonical (chainHead l) = true
        exact ihl hfl hc.1.1
      · exact ⟨hf, hc⟩
  | atom v => exact ⟨hf, hc⟩
  | name s => exact ⟨hf, hc⟩
  | unary_op op x ih => exact ⟨hf, hc⟩
  | and_ l r ihl ihr => exact ⟨hf, hc⟩
  | or_ l r ihl ihr => exact ⟨hf, hc⟩

theorem mulHead_fragment (e : Expr) (hf : inFragment e = true)
    (hc : canonical e = true) :
    inFragment (mulHead e) = true ∧ canonical (mulHead e) = true := by
  induction e with
  | binop op l r ihl ihr =>
      rcases inFragment_binop op l r hf with ⟨hop, hfl, hfr⟩
      rcases hop with rfl | rfl
      · exact ⟨hf, hc⟩
      · simp only [canonical, Bool.and_eq_true] at hc
        show inFragment (mulHead l) = true ∧ canonical (mulHead l) = true
        exact ihl hfl hc.1.1
  | atom v => exact ⟨hf, hc⟩
  | name s => exact ⟨hf, hc⟩
  | unary_op op x ih => exact ⟨hf, hc⟩
  | and_ l r ihl ihr => exact ⟨hf, hc⟩
  | or_ l r ihl ihr => exact ⟨hf, hc⟩

theorem chainTail_mem (e : Expr) (hf : inFragment e = true)
    (hc : canonical e = true) :
    ∀ t ∈ chainTail e, inFragment t = true ∧ canonical t = true ∧
      isAddNode t = false ∧ Expr.esize t < Expr.esize e := by
  induction e with
  | binop op l r ihl ihr =>
      rcases inFragment_binop op l r hf with ⟨hop, hfl, hfr⟩
      rcases hop with rfl | rfl
      · simp only [canonical, Bool.and_eq_true] at hc
        intro t ht
        have ht2 : t ∈ chainTail l ++ [r] := ht
        rcases List.mem_append.mp ht2 with h1 | h2
        · obtain ⟨a, b, c, d⟩ := ihl hfl hc.1.1 t h1
          have := esize_pos r
          refine ⟨a, b, c, ?_⟩
          show Expr.esize t < Expr.esize l + Expr.esize r + 1
          omega
        · have heq : t = r := List.mem_singleton.mp h2
          subst heq
          refine ⟨hfr, hc.1.2, ?_, ?_⟩
          · cases t with
            | binop o2 a b =>
                rcases (inFragment_binop o2 a b hfr).1 with rfl | rfl
                · exact Bool.noConfusion hc.2
                · rfl
            | atom v => rfl
            | name s => rfl
            | unary_op o x => rfl
            | and_ a b => rfl
            | or_ a b => rfl
          · have := esize_pos l
            show Expr.esize t < Expr.esize l + Expr.esize t + 1
            omega
      · intro t ht
        exact absurd ht (List.not_mem_nil t)
  | atom v => intro t ht; exact absurd ht (List.not_mem_nil t)
  | name s => intro t ht; exact absurd ht (List.not_mem_nil t)
  | unary_op op x ih => intro t ht; exact absurd ht (List.not_mem_nil t)
  | and_ l r ihl ihr => intro t ht; exact absurd ht (List.not_mem_nil t)
  | or_ l r ihl ihr => intro t ht; exact absurd ht (List.not_mem_nil t)

theorem mulTail_mem (e : Expr) (hf : inFragment e = true)
    (hc : canonical e = true) :
    ∀ t ∈ mulTail e, inFragment t = true ∧ canonical t = true ∧
      isMulNode t = false ∧ Expr.esize t < Expr.esize e := by
  induction e with
  | binop op l r ihl ihr =>
      rcases inFragment_binop op l r hf with ⟨hop, hfl, hfr⟩
      rcases hop with rfl | rfl
      · intro t ht
        exact absurd ht (List.not_mem_nil t)
      · simp only [canonical, Bool.and_eq_true] at hc
        intro t ht
        have ht2 : t ∈ mulTail l ++ [r] := ht
        rcases List.mem_append.mp ht2 with h1 | h2
        · obtain ⟨a, b, c, d⟩ := ihl hfl hc.1.1 t h1
          have := esize_pos r
          refine ⟨a, b, c, ?_⟩
          show Expr.esize t < Expr.esize l + Expr.esize r + 1
          omega
        · have heq : t = r := List.mem_singleton.mp h2
          subst heq
          refine ⟨hfr, hc.1.2, ?_, ?_⟩
          · cases t with
            | binop o2 a b =>
                rcases (inFragment_binop o2 a b hfr).1 with rfl | rfl
                · rfl
                · exact Bool.noConfusion hc.2
            | atom v => rfl
            | name s => rfl
            | unary_op o x => rfl
            | and_ a b => rfl
            | or_ a b => rfl
          · have := esize_pos l
            show Expr.esize t < Expr.esize l + Expr.esize t + 1
            omega
  | atom v => intro t ht; exact absurd ht (List.not_mem_nil t)
  | name s => intro t ht; exact absurd ht (List.not_mem_nil t)
  | unary_op op x ih => intro t ht; exact absurd ht (List.not_mem_nil t)
  | and_ l r ihl ihr => intro t ht; exact absurd ht (List.not_mem_nil t)
  | or_ l r ihl ihr => intro t ht; exact absurd ht (List.not_mem_nil t)

theorem flatToks_add_chain (e : Expr) (hf : inFragment e = true) :
    flatToks e = flatToks (chainHead e) ++ plusToks (chainTail e) := by
  induction e with
  | binop op l r ihl ihr =>
      rcases inFragment_binop op l r hf with ⟨hop, hfl, hfr⟩
      rcases hop with rfl | rfl
      · have h1 := wct_add_of_fragment l hfl "lhs"
        have h2 := wct_add_of_fragment r hfr "rhs"
        simp only [flatToks, h1, h2, wrapToks, Bool.false_eq_true, if_false,
          chainHead, chainTail]
        rw [ihl hfl, plusToks_append]
        simp [plusToks, opTok, List.append_assoc]
      · exact (List.append_nil _).symm
  | atom v => exact (List.append_nil _).symm
  | name s => exact (List.append_nil _).symm
  | unary_op op x ih => exact Bool.noConfusion hf
  | and_ l r ihl ihr => exact Bool.noConfusion hf
  | or_ l r ihl ihr => exact Bool.noConfusion hf

theorem flatToks_mul_chain (e : Expr) (hf : inFragment e = true)
    (hna : isAddNode e = false) :
    flatToks e = atomToks (mulHead e) ++ starToks (mulTail e) := by
  induction e with
  | binop op l r ihl ihr =>
      rcases inFragment_binop op l r hf with ⟨hop, hfl, hfr⟩
      rcases hop with rfl | rfl
      · exact Bool.noConfusion hna
      · have h1 := wct_mul_of_fragment l hfl "lhs"
        have h2 := wct_mul_of_fragment r hfr "rhs"
        simp only [flatToks, h1, h2, mulHead, mulTail]
        cases hml : isMulNode l with
        | false =>
            rw [mulHead_of_not_mul l hml, mulTail_of_not_mul l hml]
            show atomToks l ++ opTok .MUL :: atomToks r
                = atomToks l ++ starToks ([] ++ [r])
            simp [starToks, opTok]
        | true =>
            obtain ⟨a, b, rfl⟩ := isMulNode_shape l hml
            show flatToks (Expr.binop .MUL a b) ++ opTok .MUL :: atomToks r
                = atomToks (mulHead (Expr.binop .MUL a b))
                  ++ starToks (mulTail (Expr.binop .MUL a b) ++ [r])
            rw [ihl hfl rfl, starToks_append]
            simp [starToks, opTok, List.append_assoc]
  | atom v => exact (List.append_nil _).symm
  | name s => exact (List.append_nil _).symm
  | unary_op op x ih => exact Bool.noConfusion hf
  | and_ l r ihl ihr => exact Bool.noConfusion hf
  | or_ l r ihl ihr => exact Bool.noConfusion hf

theorem noStarHead_plusToks (l : List Expr) (ts : List Tok)
    (h : noStarHead ts) : noStarHead (plusToks l ++ ts) := by
  cases l with
  | nil => simpa [plusToks] using h
  | cons t l2 => simp [plusToks, noStarHead]

theorem parseExprF_succ (f : Nat) (ts : List Tok) :
    parseExprF (f + 1) ts =
      match parseTermF f ts with
      | some (t, ts1) => parseExprLoop f t ts1
      | none => none := rfl

theorem parseTermF_succ (f : Nat) (ts : List Tok) :
    parseTermF (f + 1) ts =
      match parseAtomF f ts with
      | some (a, ts1) => parseTermLoop f a ts1
      | none => none := rfl

theorem parseAtomF_lpar (f : Nat) (ts : List Tok) :
    parseAtomF (f + 1) (Tok.lpar :: ts) =
      match parseExprF f ts with
      | some (e, .rpar :: ts1) => some (e, ts1)
      | _ => none := rfl

theorem parseExprLoop_plus (f : Nat) (acc : Expr) (ts : List Tok) :
    parseExprLoop (f + 1) acc (Tok.plus :: ts) =
      match parseTermF f ts with
      | some (t, ts1) => parseExprLoop f (.binop .ADD acc t) ts1
      | none => none := rfl

theorem parseTermLoop_star (f : Nat) (acc : Expr) (ts : List Tok) :
    parseTermLoop (f + 1) acc (Tok.star :: ts) =
      match parseAtomF f ts with
      | some (a, ts1) => parseTermLoop f (.binop .MUL acc a) ts1
      | none => none := rfl

theorem parseExprLoop_nil (acc : Expr) (ts : List Tok) (h : noPlusHead ts) :
    ∀ fuel, 1 ≤ fuel → parseExprLoop fuel acc ts = some (acc, ts) := by
  intro fuel hfuel
  cases fuel with
  | zero => omega
  | succ f =>
      cases ts with
      | nil => rfl
      | cons t ts2 =>
          cases t with
          | plus => exact absurd rfl h
          | star => rfl
          | lpar => rfl
          | rpar => rfl
          | ident s => rfl
          | num n => rfl

theorem parseTermLoop_nil (acc : Expr) (ts : List Tok) (h : noStarHead ts) :
    ∀ fuel, 1 ≤ fuel → parseTermLoop fuel acc ts = some (acc, ts) := by
  intro fuel hfuel
  cases fuel with
  | zero => omega
  | succ f =>
      cases ts with
      | nil => rfl
      | cons t ts2 =>
          cases t with
          | star => exact absurd rfl h
          | plus => rfl
          | lpar => rfl
          | rpar => rfl
          | ident s => rfl
          | num n => rfl

theorem parseExprLoop_chain (l : List Expr) :
    ∀ (acc : Expr) (ts : List Tok) (fuel : Nat),
      (∀ t ∈ l, ∀ (ts2 : List Tok) (f2 : Nat), pcost t + 2 ≤ f2 → noStarHead ts2 →
        parseTermF f2 (flatToks t ++ ts2) = some (t, ts2)) →
      noPlusHead ts → noStarHead ts → plusCost l + 1 ≤ fuel →
      parseExprLoop fuel acc (plusToks l ++ ts) = some (rebuildAdd acc l, ts) := by
  induction l with
  | nil =>
      intro acc ts fuel hPT hp hs hfuel
      simpa [plusToks, rebuildAdd] using
        parseExprLoop_nil acc ts hp fuel (by simp only [plusCost] at hfuel; omega)
  | cons t rest ih =>
      intro acc ts fuel hPT hp hs hfuel
      simp only [plusCost] at hfuel
      cases fuel with
      | zero => omega
      | succ f =>
          have hcons : plusToks (t :: rest) ++ ts
              = Tok.plus :: (flatToks t ++ (plusToks rest ++ ts)) := by
            simp [plusToks]
          rw [hcons, parseExprLoop_plus,
            hPT t (List.mem_cons_self t rest) (plusToks rest ++ ts) f (by omega)
              (noStarHead_plusToks rest ts hs)]
          show parseExprLoop f (Expr.binop .ADD acc t) (plusToks rest ++ ts)
              = some (rebuildAdd acc (t :: rest), ts)
          exact ih (Expr.binop .ADD acc t) ts f
            (fun t2 ht2 => hPT t2 (List.mem_cons_of_mem t ht2)) hp hs (by omega)

theorem parseTermLoop_chain (l : List Expr) :
    ∀ (acc : Expr) (ts : List Tok) (fuel : Nat),
      (∀ t ∈ l, ∀ (ts2 : List Tok) (f2 : Nat), pcostA t ≤ f2 →
        parseAtomF f2 (atomToks t ++ ts2) = some (t, ts2)) →
      noStarHead ts → starCost l + 1 ≤ fuel →
      parseTermLoop fuel acc (starToks l ++ ts) = some (rebuildMul acc l, ts) := by
  induction l with
  | nil =>
      intro acc ts fuel hPA hs hfuel
      simpa [starToks, rebuildMul] using
        parseTermLoop_nil acc ts hs fuel (by simp only [starCost] at hfuel; omega)
  | cons t rest ih =>
      intro acc ts fuel hPA hs hfuel
      simp only [starCost] at hfuel
      cases fuel with
      | zero => omega
      | succ f =>
          have hcons : starToks (t :: rest) ++ ts
              = Tok.star :: (atomToks t ++ (starToks rest ++ ts)) := by
            simp [starToks]
          rw [hcons, parseTermLoop_star,
            hPA t (List.mem_cons_self t rest) (starToks rest ++ ts) f (by omega)]
          show parseTermLoop f (Expr.binop .MUL acc t) (starToks rest ++ ts)
              = some (rebuildMul acc (t :: rest), ts)
          exact ih (Expr.binop .MUL acc t) ts f
            (fun t2 ht2 => hPA t2 (List.mem_cons_of_mem t ht2)) hs (by omega)

theorem parseAtomF_num (v : Int) (h0 : 0 ≤ v) (ts : List Tok) (fuel : Nat)
    (h1 : 1 ≤ fuel) :
    parseAtomF fuel (Tok.num v.toNat :: ts) = some (.atom v, ts) := by
  cases fuel with
  | zero => omega
  | succ f =>
      have h2 : ((v.toNat : Nat) : Int) = v := Int.toNat_of_nonneg h0
      show some (Expr.atom ((v.toNat : Nat) : Int), ts) = some (Expr.atom v, ts)
      rw [h2]

theorem parseAtomF_ident (s : String) (ts : List Tok) (fuel : Nat)
    (h1 : 1 ≤ fuel) :
    parseAtomF fuel (Tok.ident s :: ts) = some (.name s, ts) := by
  cases fuel with
  | zero => omega
  | succ f => rfl

theorem parseAtomF_base (e : Expr) (hf : inFragment e = true)
    (hna : isAddNode e = false) (hnm : isMulNode e = false)
    (ts : List Tok) (fuel : Nat) (h1 : 1 ≤ fuel) :
    parseAtomF fuel (atomToks e ++ ts) = some (e, ts) := by
  cases e with
  | atom v =>
      simp only [inFragment, Bool.and_eq_true, decide_eq_true_eq] at hf
      exact parseAtomF_num v hf.1 ts fuel h1
  | name s => exact parseAtomF_ident s ts fuel h1
  | binop op l r =>
      rcases (inFragment_binop op l r hf).1 with rfl | rfl
      · exact Bool.noConfusion hna
      · exact Bool.noConfusion hnm
  | unary_op op x => exact Bool.noConfusion hf
  | and_ l r => exact Bool.noConfusion hf
  | or_ l r => exact Bool.noConfusion hf

theorem parse_props : ∀ (n : Nat) (e : Expr), Expr.esize e ≤ n →
    inFragment e = true → canonical e = true →
    ((isMulNode e = false → ∀ (ts : List Tok) (fuel : Nat), pcostA e ≤ fuel →
        parseAtomF fuel (atomToks e ++ ts) = some (e, ts)) ∧
     (isAddNode e = false → ∀ (ts : List Tok) (fuel : Nat), pcost e + 2 ≤ fuel →
        noStarHead ts → parseTermF fuel (flatToks e ++ ts) = some (e, ts)) ∧
     (∀ (ts : List Tok) (fuel : Nat), pcost e + 4 ≤ fuel → noStarHead ts →
        noPlusHead ts → parseExprF fuel (flatToks e ++ ts) = some (e, ts))) := by
  intro n
  induction n with
  | zero =>
      intro e he hf hc
      have := esize_pos e
      exact absurd he (by omega)
  | succ n ih =>
      intro e he hf hc
      have hPT : isAddNode e = false → ∀ (ts : List Tok) (fuel : Nat),
          pcost e + 2 ≤ fuel → noStarHead ts →
          parseTermF fuel (flatToks e ++ ts) = some (e, ts) := by
        intro hna ts fuel hfuel hs
        have hheadPA : ∀ (ts2 : List Tok) (f2 : Nat), pcostA (mulHead e) ≤ f2 →
            parseAtomF f2 (atomToks (mulHead e) ++ ts2) = some (mulHead e, ts2) := by
          cases hm : isMulNode e with
          | true =>
              have hlt := mulHead_esize_lt_of_mul e hm
              obtain ⟨hfrag, hcan⟩ := mulHead_fragment e hf hc
              exact (ih (mulHead e) (by omega) hfrag hcan).1 (isMulNode_mulHead e)
          | false =>
              have heq := mulHead_of_not_mul e hm
              rw [heq]
              exact fun ts2 f2 h2 =>
                parseAtomF_base e hf hna hm ts2 f2 (le_trans (pcostA_pos e) h2)
        have htailPA : ∀ t ∈ mulTail e, ∀ (ts2 : List Tok) (f2 : Nat), pcostA t ≤ f2 →
            parseAtomF f2 (atomToks t ++ ts2) = some (t, ts2) := by
          intro t ht
          obtain ⟨hft, hct, hmt, hlt⟩ := mulTail_mem e hf hc t ht
          exact (ih t (by omega) hft hct).1 hmt
        cases fuel with
        | zero => omega
        | succ f =>
            rw [parseTermF_succ, flatToks_mul_chain e hf hna, List.append_assoc,
              hheadPA (starToks (mulTail e) ++ ts) f
                (by have := pcostA_mulHead_le e hf hna; omega)]
            show parseTermLoop f (mulHead e) (starToks (mulTail e) ++ ts)
                = some (e, ts)
            rw [parseTermLoop_chain (mulTail e) (mulHead e) ts f htailPA hs
              (by have := starCost_mulTail_le e; omega), rebuildMul_chain e]
      have hPE : ∀ (ts : List Tok) (fuel : Nat), pcost e + 4 ≤ fuel →
          noStarHead ts → noPlusHead ts →
          parseExprF fuel (flatToks e ++ ts) = some (e, ts) := by
        intro ts fuel hfuel hs hp
        cases fuel with
        | zero => omega
        | succ f =>
            rw [parseExprF_succ]
            cases hna : isAddNode e with
            | false =>
                rw [hPT hna ts f (by omega) hs]
                show parseExprLoop f e ts = some (e, ts)
                exact parseExprLoop_nil e ts hp f (by omega)
            | true =>
                have htailPT : ∀ t ∈ chainTail e, ∀ (ts2 : List Tok) (f2 : Nat),
                    pcost t + 2 ≤ f2 → noStarHead ts2 →
                    parseTermF f2 (flatToks t ++ ts2) = some (t, ts2) := by
                  intro t ht
                  obtain ⟨hft, hct, hat, hlt⟩ := chainTail_mem e hf hc t ht
                  exact (ih t (by omega) hft hct).2.1 hat
                obtain ⟨hfrag, hcan⟩ := chainHead_fragment e hf hc
                have hheadPT := (ih (chainHead e)
                  (by have := chainHead_esize_lt_of_add e hna; omega) hfrag hcan).2.1
                  (isAddNode_chainHead e)
                rw [flatToks_add_chain e hf, List.append_assoc,
                  hheadPT (plusToks (chainTail e) ++ ts) f
                    (by have := chainHead_pcost_le e; omega)
                    (noStarHead_plusToks (chainTail e) ts hs)]
                show parseExprLoop f (chainHead e) (plusToks (chainTail e) ++ ts)
                    = some (e, ts)
                rw [parseExprLoop_chain (chainTail e) (chainHead e) ts f htailPT hp hs
                  (by have := plusCost_chainTail_le e; omega), rebuildAdd_chain e]
      have hPA : isMulNode e = false → ∀ (ts : List Tok) (fuel : Nat),
          pcostA e ≤ fuel → parseAtomF fuel (atomToks e ++ ts) = some (e, ts) := by
        intro hnm ts fuel hfuel
        cases hna : isAddNode e with
        | false =>
            exact parseAtomF_base e hf hna hnm ts fuel
              (le_trans (pcostA_pos e) hfuel)
        | true =>
            obtain ⟨l, r, rfl⟩ := isAddNode_shape e hna
            have hfuel2 : pcost (Expr.binop .ADD l r) + 5 ≤ fuel := hfuel
            cases fuel with
            | zero => have := pcost_pos (Expr.binop .ADD l r); omega
            | succ f =>
                have hw : atomToks (Expr.binop .ADD l r) ++ ts
                    = Tok.lpar :: (flatToks (Expr.binop .ADD l r)
                        ++ (Tok.rpar :: ts)) := by
                  simp [atomToks, wrapToks, isAddNode]
                rw [hw, parseAtomF_lpar,
                  hPE (Tok.rpar :: ts) f (by omega)
                    (by simp [noStarHead]) (by simp [noPlusHead])]
      exact ⟨hPA, hPT, hPE⟩

theorem wrapToks_length_ge (w : Bool) (ts : List Tok) :
    ts.length ≤ (wrapToks w ts).length := by
  cases w <;> simp [wrapToks] <;> omega

theorem pcost_le_toks (e : Expr) (hf : inFragment e = true) :
    pcost e ≤ 9 * (flatToks e).length := by
  induction e with
  | atom v => simp [pcost, flatToks]
  | name s => simp [pcost, flatToks]
  | binop op l r ihl ihr =>
      rcases inFragment_binop op l r hf with ⟨hop, hfl, hfr⟩
      have hl := ihl hfl
      have hr := ihr hfr
      rcases hop with rfl | rfl
      · simp only [flatToks, pcost, List.length_append, List.length_cons]
        have h1 := wrapToks_length_ge (wrap_child_tokens .ADD l "lhs") (flatToks l)
        have h2 := wrapToks_length_ge (wrap_child_tokens .ADD r "rhs") (flatToks r)
        omega
      · simp only [flatToks, pcost, List.length_append, List.length_cons]
        have h1 := wrapToks_length_ge (wrap_child_tokens .MUL l "lhs") (flatToks l)
        have h2 := wrapToks_length_ge (wrap_child_tokens .MUL r "rhs") (flatToks r)
        omega
  | unary_op op x ih => exact Bool.noConfusion hf
  | and_ l r ihl ihr => exact Bool.noConfusion hf
  | or_ l r ihl ihr => exact Bool.noConfusion hf

theorem parse_print_roundtrip (e : Expr) (hf : inFragment e = true)
    (hc : canonical e = true) : parseSource (Expr.source e) = some e := by
  have hlex : lexSource (Expr.source e) = some (flatToks e) := by
    have h := lex_source_ok e hf [] [] trivial
      (fun f _ => by cases f <;> rfl) ((Expr.source e).data.length) (by simp)
    simpa [lexSource] using h
  have hparse := (parse_props (Expr.esize e) e (le_refl _) hf hc).2.2 []
    (9 * (flatToks e).length + 9)
    (by have := pcost_le_toks e hf; omega)
    (by simp [noStarHead]) (by simp [noPlusHead])
  simp only [List.append_nil] at hparse
  show (match lexSource (Expr.source e) with
        | some ts =>
            match parseExprF (9 * ts.length + 9) ts with
            | some (e2, []) => some e2
            | _ => none
        | none => none) = some e
  rw [hlex]
  show (match parseExprF (9 * (flatToks e).length + 9) (flatToks e) with
        | some (e2, []) => some e2
        | _ => none) = some e
  rw [hparse]

/-- C1 (amended): printing then re-parsing recovers the tree for every
expression of the representative grammar fragment whose operator chains are
left-nested (the canonical shapes, exactly what the grammar's left-recursive
rules produce); in particular `BinOp(ADD, Name("x"), Atom(1))` prints as
`"x + 1"` and re-parsing `"x + 1"` yields an equal node.  The unrestricted
claim is refuted by the counterexample theorem: the printer is not
injective, so `parse(node.source()) == node` cannot hold for every
constructible node. -/
theorem roundtrip_holds_on_canonical_fragment (e : Expr)
    (hf : inFragment e = true) (hc : canonical e = true) :
    parseSource (Expr.source e) = some e ∧
    Expr.source (Expr.binop .ADD (.name "x") (.atom 1)) = "x + 1" ∧
    parseSource "x + 1" = some (Expr.binop .ADD (.name "x") (.atom 1)) :=
  ⟨parse_print_roundtrip e hf hc, by decide, by decide⟩

/-- Witness: the concrete example node is in the canonical fragment and
round-trips. -/
theorem roundtrip_holds_on_canonical_fragment_witness :
    inFragment (Expr.binop .ADD (.name "x") (.atom 1)) = true ∧
    canonical (Expr.binop .ADD (.name "x") (.atom 1)) = true ∧
    parseSource (Expr.source (Expr.binop .ADD (.name "x") (.atom 1)))
      = some (Expr.binop .ADD (.name "x") (.atom 1)) :=
  ⟨by decide, by decide,
    (roundtrip_holds_on_canonical_fragment
      (Expr.binop .ADD (.name "x") (.atom 1)) (by decide) (by decide)).1⟩

/-- C1 counterexample: the printer is not injective — the left-nested and
the right-nested sums of `x`, `y`, `z` both print as `"x + y + z"` — so the
right-nested node, although built by the constructors, does not satisfy
`parse(node.source()) == node`: the parser returns the left-nested tree. -/
theorem source_not_injective_roundtrip_fails :
    Expr.source (Expr.binop .ADD (Expr.binop .ADD (.name "x") (.name "y"))
        (.name "z"))
      = Expr.source (Expr.binop .ADD (.name "x")
        (Expr.binop .ADD (.name "y") (.name "z"))) ∧
    Expr.binop .ADD (Expr.binop .ADD (.name "x") (.name "y")) (.name "z")
      ≠ Expr.binop .ADD (.name "x") (Expr.binop .ADD (.name "y") (.name "z")) ∧
    parseSource (Expr.source (Expr.binop .ADD (.name "x")
        (Expr.binop .ADD (.name "y") (.name "z"))))
      ≠ some (Expr.binop .ADD (.name "x")
        (Expr.binop .ADD (.name "y") (.name "z"))) :=
  ⟨by decide, by decide, by decide⟩

end Ox
